import Mathlib

/-!
# Verification of `peptide_search.tools.sequence`

A shallow embedding, in Lean 4, of the sequence-enumeration core of the
`pssm-kinase-sensors` repository (`src/peptide_search/tools/sequence.py`):

* `is_valid_sequence`   — the biological validity predicate;
* `greedy_pssm_generator` — the lazy best-first enumerator over per-column
  rank vectors, embedded as a fuelled step function over an explicit
  search state (priority queue + visited set);
* `get_sequence_score`  — the scorer;
* `get_pssm_range`      — the range estimator.

Modelling conventions:

* A PSSM is a `List (List ℚ)` of `R` rows, each of length `C`; matrix
  entries are exact rationals (the Python code uses IEEE floats; we use
  exact arithmetic, the usual idealisation).
* The Python code stores `np.log2(np.prod(vals))` (negated in the
  descending direction) as the heap priority.  `log2` is strictly
  monotone on the positive reals, so here the state carries the *product*
  of the selected entries (negated in the descending direction) instead;
  for strictly positive matrices this yields exactly the same heap order
  and the same ties as the exact log scores.  Theorems about the actual
  score apply `Real.logb 2` to the product at the statement level.
* `np.argsort` per column is embedded as a stable sort of the row indices
  by entry value (numpy's sort is unstable for large inputs, but on
  columns whose entries are pairwise distinct — the case of every concrete
  matrix used below — every sort produces the same permutation).
* The Python generator suspends at `yield`; here a fuel parameter bounds
  the number of loop iterations (pops).  The popped trace is prefix-stable
  in the fuel, so any property of `greedyRun … fuel` quantified over all
  fuels is a property of the unbounded Python loop.
-/

set_option maxRecDepth 100000

attribute [local semireducible] Rat.mul Rat.add Rat.sub Rat.inv

/-- Number of columns of the matrix (`pssm.shape[1]`). -/
def cSize (pssm : List (List ℚ)) : ℕ := (pssm.headD []).length

/-- Number of rows of the matrix (`pssm.shape[0]`). -/
def rSize (pssm : List (List ℚ)) : ℕ := pssm.length

/-- Matrix entry `pssm[r][c]`. -/
def colVal (pssm : List (List ℚ)) (r c : ℕ) : ℚ := (pssm.getD r []).getD c 0

/-- Column `c` of the matrix, as a list of `R` values. -/
def column (pssm : List (List ℚ)) (c : ℕ) : List ℚ := pssm.map (fun row => row.getD c 0)

/-- Model of `np.argsort` of one column: the row indices sorted (stably) by
ascending entry value. -/
def argsortCol (vals : List ℚ) : List ℕ :=
  List.insertionSort (fun i j => vals.getD i 0 ≤ vals.getD j 0) (List.range vals.length)

/-- Column `c` of `greedy_sort`: ascending argsort, flipped when
`descending` (the code computes `np.flip(pssm.argsort(axis=0), axis=0)`).
Position `r` holds the row index of the rank-`r` choice for that column. -/
def greedySortCol (pssm : List (List ℚ)) (descending : Bool) (c : ℕ) : List ℕ :=
  let asc := argsortCol (column pssm c)
  if descending then asc.reverse else asc

/-- Model of `greedy_sort[indices, cols]`: resolve a rank vector to actual row
indices, one per column. -/
def resolveRows (pssm : List (List ℚ)) (descending : Bool) (indices : List ℕ) : List ℕ :=
  (List.range (cSize pssm)).map
    (fun c => (greedySortCol pssm descending c).getD (indices.getD c 0) 0)

/-- Model of `pssm[pssm_indices, cols]`: the matrix entries selected by a rank
vector, one per column. -/
def stateVals (pssm : List (List ℚ)) (descending : Bool) (indices : List ℕ) : List ℚ :=
  (List.range (cSize pssm)).map
    (fun c => colVal pssm ((greedySortCol pssm descending c).getD (indices.getD c 0) 0) c)

/-- Model of `np.prod(vals)` for the entries selected by a rank vector.  The code
stores `np.log2` of this product; see the module docstring. -/
def stateProd (pssm : List (List ℚ)) (descending : Bool) (indices : List ℕ) : ℚ :=
  (stateVals pssm descending indices).prod

/-- Model of `new_seq = [aminoacids[i] for i in pssm_indices]; new_seq[5] = "S"`:
the candidate symbol sequence of a rank vector, with the centre column
forced to `'S'`. -/
def stateSeq (pssm : List (List ℚ)) (aminoacids : List Char) (descending : Bool)
    (indices : List ℕ) : List Char :=
  ((resolveRows pssm descending indices).map (fun i => aminoacids.getD i ' ')).set 5 'S'

/-- The resolved symbol sequence *without* the centre-column override
(`[aminoacids[i] for i in pssm_indices]` before the `[5] = "S"`
assignment). -/
def rawResolveSeq (pssm : List (List ℚ)) (aminoacids : List Char) (descending : Bool)
    (indices : List ℕ) : List Char :=
  (resolveRows pssm descending indices).map (fun i => aminoacids.getD i ' ')

/-- The heap priority of a rank vector: the selected product, negated in
the descending direction (the code stores `log2` of the product, an
order-isomorphic value for positive matrices). -/
def stateKey (pssm : List (List ℚ)) (descending : Bool) (indices : List ℕ) : ℚ :=
  if descending then -(stateProd pssm descending indices)
  else stateProd pssm descending indices

/-- The predicate `is_valid_sequence` from the source, on a sequence of single-character
symbols:
* no `'C'` anywhere;
* length exactly 10, `sequence[5] = 'S'`, no `'K'` in `sequence[4:7]`;
* no `'K'`/`'R'` in both `sequence[:5]` and `sequence[6:]`. -/
def is_valid_sequence (sequence : List Char) : Bool :=
  if 'C' ∈ sequence then false
  else if sequence.length ≠ 10 ∨ sequence.getD 5 ' ' ≠ 'S'
      ∨ 'K' ∈ (sequence.drop 4).take 3 then false
  else
    let first_half := sequence.take 5
    let second_half := sequence.drop 6
    if ('K' ∈ first_half ∨ 'R' ∈ first_half) ∧ ('K' ∈ second_half ∨ 'R' ∈ second_half)
    then false
    else true

/-- A heap element: the tuple `(score, seq, indices)` pushed by the code. -/
abbrev PQState := ℚ × List Char × List ℕ

/-- Lexicographic comparison of `List Char` (Python compares tuples of
one-character strings element by element, strings by code point). -/
def charListLt : List Char → List Char → Bool
  | [], [] => false
  | [], _ :: _ => true
  | _ :: _, [] => false
  | a :: as, b :: bs => if a < b then true else if b < a then false else charListLt as bs

/-- Lexicographic comparison of `List ℕ` (Python tuple comparison). -/
def natListLt : List ℕ → List ℕ → Bool
  | [], [] => false
  | [], _ :: _ => true
  | _ :: _, [] => false
  | a :: as, b :: bs => if a < b then true else if b < a then false else natListLt as bs

/-- Python's comparison of the heap tuples `(score, seq, indices)`:
score first, then the symbol sequence, then the rank vector. -/
def stateLtB (a b : PQState) : Bool :=
  if a.1 < b.1 then true
  else if b.1 < a.1 then false
  else if charListLt a.2.1 b.2.1 then true
  else if charListLt b.2.1 a.2.1 then false
  else natListLt a.2.2 b.2.2

/-- Model of `heapq.heappop`: extract the minimum tuple, returning it together with
the remaining queue.  (Only the choice of minimum matters; the internal
heap layout does not affect behaviour.) -/
def popMin : List PQState → Option (PQState × List PQState)
  | [] => none
  | x :: xs =>
    match popMin xs with
    | none => some (x, [])
    | some (m, rest) => if stateLtB m x then some (m, x :: rest) else some (x, xs)

/-- The generator's suspended state: the priority queue `pq` and the
`visited` set (modelled as a list used as a set). -/
structure SearchState where
  pq : List PQState
  visited : List (List ℕ)
deriving DecidableEq, Repr

/-- Model of `initial_indices = [0] * c_size`: the all-zero rank vector. -/
def initIndices (pssm : List (List ℚ)) : List ℕ := List.replicate (cSize pssm) 0

/-- Model of `pssm_indices = greedy_sort[initial_indices, cols]`: the *row* indices
of the rank-0 choices.  NB the code seeds `visited` with this tuple. -/
def initPssmIndices (pssm : List (List ℚ)) (descending : Bool) : List ℕ :=
  resolveRows pssm descending (initIndices pssm)

/-- The state just before the `while` loop: queue seeded with the root
state, and `visited = set([tuple(pssm_indices)])` — faithfully the row
index tuple, exactly as in the source. -/
def initState (pssm : List (List ℚ)) (aminoacids : List Char) (descending : Bool) :
    SearchState :=
  { pq := [(stateKey pssm descending (initIndices pssm),
            stateSeq pssm aminoacids descending (initIndices pssm),
            initIndices pssm)],
    visited := [initPssmIndices pssm descending] }

/-- The neighbour-expansion body for one column: skip the centre column,
increment the column's rank if still `< r_size`, and push the new state
unless its rank vector is already in `visited` (adding it to `visited`
at push time). -/
def expandCol (pssm : List (List ℚ)) (aminoacids : List Char) (descending : Bool)
    (indices : List ℕ) (st : SearchState) (col : ℕ) : SearchState :=
  if col = 5 then st
  else if indices.getD col 0 + 1 < rSize pssm then
    let newIndices := indices.set col (indices.getD col 0 + 1)
    if newIndices ∈ st.visited then st
    else { pq := (stateKey pssm descending newIndices,
                  stateSeq pssm aminoacids descending newIndices,
                  newIndices) :: st.pq,
           visited := newIndices :: st.visited }
  else st

/-- One iteration of the `while pq` loop: pop the minimum tuple and expand
its neighbours over all columns.  Returns `none` when the queue is empty
(the loop exits). -/
def greedyStep (pssm : List (List ℚ)) (aminoacids : List Char) (descending : Bool)
    (st : SearchState) : Option (PQState × SearchState) :=
  match popMin st.pq with
  | none => none
  | some (top, rest) =>
    some (top, (List.range (cSize pssm)).foldl
      (expandCol pssm aminoacids descending top.2.2) { pq := rest, visited := st.visited })

/-- The trace of popped states over at most `fuel` loop iterations. -/
def greedyRun (pssm : List (List ℚ)) (aminoacids : List Char) (descending : Bool) :
    ℕ → SearchState → List PQState
  | 0, _ => []
  | n + 1, st =>
    match greedyStep pssm aminoacids descending st with
    | none => []
    | some (top, st') => top :: greedyRun pssm aminoacids descending n st'

/-- The search state after at most `fuel` loop iterations. -/
def runState (pssm : List (List ℚ)) (aminoacids : List Char) (descending : Bool) :
    ℕ → SearchState → SearchState
  | 0, st => st
  | n + 1, st =>
    match greedyStep pssm aminoacids descending st with
    | none => st
    | some (_, st') => runState pssm aminoacids descending n st'

/-- The trace of popped states of a fresh generator (`greedyRun` from the
seeded initial state). -/
def greedyTrace (pssm : List (List ℚ)) (aminoacids : List Char) (descending : Bool)
    (fuel : ℕ) : List PQState :=
  greedyRun pssm aminoacids descending fuel (initState pssm aminoacids descending)

/-- The generator `greedy_pssm_generator`: the values actually yielded by the source
generator within `fuel` loop iterations — the popped candidates that pass
`is_valid_sequence`, joined into strings (`yield "".join(seq)`). -/
def greedy_pssm_generator (pssm : List (List ℚ)) (aminoacids : List Char)
    (descending : Bool) (fuel : ℕ) : List String :=
  (greedyTrace pssm aminoacids descending fuel).filterMap
    (fun t => if is_valid_sequence t.2.1 then some (String.mk t.2.1) else none)

/-- Modelled from the spec: the Enumerator contract of §4.3 — "yield
`(candidate, unnegated_score)`" — which is *not* what the source yields.
Same search loop, but each yielded item is the pair of the candidate and
the sign-unadjusted score. -/
def greedy_pssm_generator_spec_pairs (pssm : List (List ℚ)) (aminoacids : List Char)
    (descending : Bool) (fuel : ℕ) : List (String × ℚ) :=
  (greedyTrace pssm aminoacids descending fuel).filterMap
    (fun t => if is_valid_sequence t.2.1 then
        some (String.mk t.2.1, if descending then -t.1 else t.1) else none)

/-- Errors of `get_sequence_score`: a sequence symbol absent from the
alphabet (Python `ValueError` from `list.index`), or a sequence whose
length does not match the number of matrix columns (numpy shape
mismatch in the fancy indexing). -/
inductive ScoreError where
  | symbolNotFound (c : Char)
  | shapeMismatch
deriving DecidableEq, Repr

/-- Model of `aminoacids.tolist().index(c)`: the first position of `c`, or `none`
(Python raises `ValueError`). -/
def list_index : List Char → Char → Option ℕ
  | [], _ => none
  | a :: as, c => if a = c then some 0 else (list_index as c).map (· + 1)

/-- The `indices` loop of `get_sequence_score`: look each symbol up in the
alphabet, failing at the first absent symbol. -/
def lookupIndices (aminoacids : List Char) : List Char → Except ScoreError (List ℕ)
  | [] => .ok []
  | c :: rest =>
    match list_index aminoacids c with
    | none => .error (.symbolNotFound c)
    | some i =>
      match lookupIndices aminoacids rest with
      | .error e => .error e
      | .ok is => .ok (i :: is)

/-- The scorer `get_sequence_score`: looks up each symbol's row, fetches
`pssm[indices, range(C)]` and multiplies.  The code returns
`np.log2(np.prod(vals))`; as explained in the module docstring the model
returns the product itself, and theorems apply `Real.logb 2` to it. -/
def get_sequence_score (pssm : List (List ℚ)) (aminoacids : List Char)
    (sequence : List Char) : Except ScoreError ℚ :=
  match lookupIndices aminoacids sequence with
  | .error e => .error e
  | .ok indices =>
    if indices.length = cSize pssm then
      .ok (((List.range (cSize pssm)).map (fun c => colVal pssm (indices.getD c 0) c)).prod)
    else .error .shapeMismatch

/-- First value yielded by a fresh generator within `fuel` iterations
(`next(greedy_pssm_generator(...))`). -/
def firstYield (pssm : List (List ℚ)) (aminoacids : List Char) (descending : Bool)
    (fuel : ℕ) : Option String :=
  (greedy_pssm_generator pssm aminoacids descending fuel).head?

/-- The range estimator `get_pssm_range`: score of the first yield of the ascending search,
paired with the score of the first yield of the descending search.
`none` models a search that produced no candidate within `fuel`
iterations (the Python call would simply not return). -/
def get_pssm_range (fuel : ℕ) (pssm : List (List ℚ)) (aminoacids : List Char) :
    Option (Except ScoreError ℚ × Except ScoreError ℚ) :=
  match firstYield pssm aminoacids true fuel, firstYield pssm aminoacids false fuel with
  | some max_seq, some min_seq =>
    some (get_sequence_score pssm aminoacids min_seq.toList,
          get_sequence_score pssm aminoacids max_seq.toList)
  | _, _ => none

/-- The neighbour relation on rank vectors: increment one non-centre
column's rank, staying below `R`. -/
def IncrStep (R : ℕ) (C : ℕ) (v w : List ℕ) : Prop :=
  ∃ col, col < C ∧ col ≠ 5 ∧ v.getD col 0 + 1 < R ∧ w = v.set col (v.getD col 0 + 1)

/-- Reachability from the all-zero rank vector along single-column rank
increments. -/
def ReachableFromRoot (R : ℕ) (C : ℕ) (v : List ℕ) : Prop :=
  Relation.ReflTransGen (IncrStep R C) (List.replicate C 0) v

instance : DecidableEq (Except ScoreError ℚ) := fun a b =>
  match a, b with
  | .ok x, .ok y => decidable_of_iff (x = y) (by simp)
  | .error x, .error y => decidable_of_iff (x = y) (by simp)
  | .ok _, .error _ => isFalse (by simp)
  | .error _, .ok _ => isFalse (by simp)

/-! ## Concrete matrices used as test inputs

All columns of all matrices below have pairwise distinct entries, so
`np.argsort` is unambiguous on them and equals the stable sort of the
embedding. -/

/-- A 3×10 matrix over the alphabet `S, K, A`.  In the descending
direction the rank-0 row of every column is `S`, except column 6 where it
is `K`; hence `greedy_sort[[0]*10, cols] = [0,0,0,0,0,0,1,0,0,0]`, the
tuple the code seeds `visited` with. -/
def pssmSKA : List (List ℚ) :=
  [[8, 8, 8, 8, 8, 8, 4, 8, 8, 8],
   [7, 2, 2, 2, 2, 4, 8, 2, 2, 2],
   [1, 1, 1, 1, 1, 2, 1, 1, 1, 1]]

/-- Alphabet of `pssmSKA`. -/
def aminoSKA : List Char := ['S', 'K', 'A']

/-- The rank vector that increments only column 6 — reachable from the
root in one step, but equal (as a tuple) to the row-index vector the code
places in `visited` before the loop starts. -/
def e6Vec : List ℕ := [0, 0, 0, 0, 0, 0, 1, 0, 0, 0]

/-- A 2×10 matrix over the alphabet `A, S` whose best-ranked (descending)
row is `A` in every column, including column 5. -/
def pssmAS : List (List ℚ) :=
  [List.replicate 10 4, List.replicate 10 2]

/-- Alphabet of `pssmAS` (and of the two probability matrices below). -/
def aminoAS : List Char := ['A', 'S']

/-- All-equal-structure probability matrix: row `A` is `1/4`, row `S` is
`1/2` in every column. -/
def pssmHalf : List (List ℚ) :=
  [List.replicate 10 (1/4), List.replicate 10 (1/2)]

/-- Same ordering structure as `pssmHalf` but different entries: row `A`
is `1/16`, row `S` is `1/4`. -/
def pssmQuarter : List (List ℚ) :=
  [List.replicate 10 (1/16), List.replicate 10 (1/4)]

/-- A single-row matrix: no column rank can ever be incremented. -/
def pssmOneRow : List (List ℚ) := [List.replicate 10 1]

/-- Alphabet of `pssmOneRow`. -/
def aminoOneRow : List Char := ['A']

/-- The shape of a state pushed while expanding the neighbours of the
rank vector `idx` over the columns `cols`. -/
def pushedFrom (pssm : List (List ℚ)) (aminoacids : List Char) (descending : Bool)
    (idx : List ℕ) (cols : List ℕ) (y : PQState) : Prop :=
  ∃ col ∈ cols, col ≠ 5 ∧ idx.getD col 0 + 1 < rSize pssm ∧
    y.2.2 = idx.set col (idx.getD col 0 + 1) ∧
    y.1 = stateKey pssm descending y.2.2 ∧
    y.2.1 = stateSeq pssm aminoacids descending y.2.2

/-- The well-formedness facts carried by every state the search ever
handles: the stored priority and symbol sequence are the ones computed
from its rank vector, the vector has one rank per column, and every rank
is a valid row rank. -/
def GoodState (pssm : List (List ℚ)) (aminoacids : List Char) (descending : Bool)
    (y : PQState) : Prop :=
  y.1 = stateKey pssm descending y.2.2 ∧
  y.2.1 = stateSeq pssm aminoacids descending y.2.2 ∧
  y.2.2.length = cSize pssm ∧
  ∀ c < cSize pssm, y.2.2.getD c 0 < rSize pssm

/-- Score of a yielded string: the (positive) product whose `log2` the
code reports, read back through the scorer. -/
def yieldScoreProd (pssm : List (List ℚ)) (aminoacids : List Char) (s : String) : ℚ :=
  ((get_sequence_score pssm aminoacids s.toList).toOption).getD 0


/-! ## C9 — termination of the search loop -/

/-- C9 (counterexample): the claim "for every matrix and alphabet the
stream never terminates on its own" is false.  On the single-row matrix
the root is popped (the trace is non-empty), no neighbour can be pushed,
and after that single iteration the queue is empty and the loop exits by
itself: the step function returns `none` and no amount of extra fuel
extends the trace. -/
theorem search_loop_exhausts :
    greedyTrace pssmOneRow aminoOneRow true 1 ≠ [] ∧
    (runState pssmOneRow aminoOneRow true 1 (initState pssmOneRow aminoOneRow true)).pq
      = [] ∧
    greedyStep pssmOneRow aminoOneRow true
      (runState pssmOneRow aminoOneRow true 1 (initState pssmOneRow aminoOneRow true))
      = none ∧
    greedyTrace pssmOneRow aminoOneRow true 5 = greedyTrace pssmOneRow aminoOneRow true 1 := by
  refine ⟨by decide, by decide, by decide, by decide⟩

/-- Popping a non-empty queue always returns an element. -/
theorem popMin_ne_none (x : PQState) (xs : List PQState) : popMin (x :: xs) ≠ none := by
  unfold popMin
  cases popMin xs with
  | none => simp
  | some p =>
    cases p with
    | mk m rest =>
      dsimp only
      split
      · simp
      · simp

/-- C9 (amended): the loop `while pq` runs exactly until the priority
queue empties: one iteration of the search loop is impossible if and only
if the queue is empty.  The queue can empty on its own (see
`search_loop_exhausts`), so it is not true that only the caller bounds
the stream; for matrices with at least two rows the reachable space is
astronomically large, which is the practical reading of the spec. -/
theorem step_none_iff_queue_empty (pssm : List (List ℚ)) (aminoacids : List Char)
    (descending : Bool) (st : SearchState) :
    greedyStep pssm aminoacids descending st = none ↔ st.pq = [] := by
  unfold greedyStep
  cases hpq : st.pq with
  | nil => simp [popMin]
  | cons x xs =>
    cases h : popMin (x :: xs) with
    | none => exact absurd h (popMin_ne_none x xs)
    | some p => simp

/-! ## C6 — the shape of the yielded items -/

/-- C6 (counterexample): the yielded items carry no score.  Two matrices
whose candidate streams coincide but whose scores differ produce exactly
the same yields from the source generator, while the spec's
`(candidate, unnegated_score)` stream distinguishes them — so the source
yield cannot be the spec's pair. -/
theorem yields_carry_no_score :
    greedy_pssm_generator pssmHalf aminoAS true 1
      = greedy_pssm_generator pssmQuarter aminoAS true 1 ∧
    greedy_pssm_generator pssmHalf aminoAS true 1 = ["SSSSSSSSSS"] ∧
    greedy_pssm_generator_spec_pairs pssmHalf aminoAS true 1
      ≠ greedy_pssm_generator_spec_pairs pssmQuarter aminoAS true 1 := by
  refine ⟨by decide, by decide, by decide⟩

/-- C6 (amended): each item produced by the generator is the validated
candidate string *alone*: the yield stream is exactly the first
projection of the spec's `(candidate, unnegated_score)` stream, the score
component being dropped. -/
theorem yields_are_candidates_only (pssm : List (List ℚ)) (aminoacids : List Char)
    (descending : Bool) (fuel : ℕ) :
    greedy_pssm_generator pssm aminoacids descending fuel =
      (greedy_pssm_generator_spec_pairs pssm aminoacids descending fuel).map Prod.fst := by
  unfold greedy_pssm_generator greedy_pssm_generator_spec_pairs
  induction greedyTrace pssm aminoacids descending fuel with
  | nil => rfl
  | cons t ts ih =>
    rw [List.filterMap_cons, List.filterMap_cons]
    by_cases h : is_valid_sequence t.2.1 = true
    · simp only [h, if_true]
      simpa using ih
    · simp only [h, if_false, Bool.false_eq_true]
      simpa using ih

/-! ## C2 — internal ordering score vs. candidate score -/

/-- C2 (counterexample): the claim fails at the very first popped state of
the search on `pssmAS`.  The internal priority is computed from the
rank-resolved entries *before* the centre column is forced to `'S'`: the
state resolves to the candidate `"AAAAASAAAA"`, the sign-unadjusted
internal product is `4^10 = 1048576` (exact log2 score `20`), while
`get_sequence_score` of the candidate gives `4^9·2 = 524288` (exact log2
score `19`) — a gap of `1`, far above the `1e-9` tolerance. -/
theorem internal_score_differs_from_candidate_score :
    greedyTrace pssmAS aminoAS true 1
      = [(-(1048576 : ℚ), "AAAAASAAAA".toList, List.replicate 10 0)] ∧
    get_sequence_score pssmAS aminoAS "AAAAASAAAA".toList = .ok 524288 ∧
    ¬ |Real.logb 2 ((1048576 : ℚ) : ℝ) - Real.logb 2 ((524288 : ℚ) : ℝ)|
        ≤ 1 / 1000000000 := by
  refine ⟨by decide, by decide, ?_⟩
  have h1 : ((1048576 : ℚ) : ℝ) = 2 ^ (20 : ℕ) := by norm_num
  have h2 : ((524288 : ℚ) : ℝ) = 2 ^ (19 : ℕ) := by norm_num
  rw [h1, h2, Real.logb_pow, Real.logb_pow, Real.logb_self_eq_one (by norm_num)]
  norm_num

/-! ## C3 — the range estimator misses a better valid sequence -/

/-- C3 (code bug): on the strictly positive 3×10 matrix `pssmSKA` with
its matching duplicate-free alphabet, `get_pssm_range` returns
`max_score = 7·2^26` (first valid yield `"KSSSSSSSSS"`), yet the valid
sequence `"SSSSSSSSSS"` (all symbols in the alphabet) scores `2^29`,
strictly above the returned maximum — `min ≤ score(s) ≤ max` fails.
Root cause: the code seeds `visited` with the *row*-index tuple
`greedy_sort[[0]*10, cols] = (0,0,0,0,0,0,1,0,0,0)`, which here equals
the reachable rank vector that increments column 6, so that state — the
unique state resolving to `"SSSSSSSSSS"` — is never pushed (see
`reachable_state_never_popped`). -/
theorem pssm_range_misses_better_valid_sequence :
    (∀ row ∈ pssmSKA, ∀ v ∈ row, 0 < v) ∧ aminoSKA.Nodup ∧
    rSize pssmSKA = aminoSKA.length ∧ cSize pssmSKA = 10 ∧
    get_pssm_range 3 pssmSKA aminoSKA = some (.ok 8, .ok 469762048) ∧
    is_valid_sequence "SSSSSSSSSS".toList = true ∧
    (∀ ch ∈ "SSSSSSSSSS".toList, ch ∈ aminoSKA) ∧
    get_sequence_score pssmSKA aminoSKA "SSSSSSSSSS".toList = .ok 536870912 ∧
    Real.logb 2 ((469762048 : ℚ) : ℝ) < Real.logb 2 ((536870912 : ℚ) : ℝ) := by
  refine ⟨by decide, by decide, by decide, by decide, by decide, by decide, by decide,
    by decide, ?_⟩
  exact Real.logb_lt_logb (by norm_num) (by norm_num) (by norm_num)

/-! ## C8 — the scorer -/

/-- The lookup `list.index` returns `none` exactly for absent symbols. -/
theorem list_index_eq_none_iff (l : List Char) (c : Char) :
    list_index l c = none ↔ c ∉ l := by
  induction l with
  | nil => simp [list_index]
  | cons a as ih =>
    simp only [list_index, List.mem_cons]
    by_cases h : a = c
    · simp [h]
    · rw [if_neg h, Option.map_eq_none', ih]
      constructor
      · intro hn hc
        rcases hc with h1 | h2
        · exact h h1.symm
        · exact hn h2
      · intro hn hc
        exact hn (Or.inr hc)

/-- On present symbols, `list.index` agrees with `List.indexOf` (the
position of the first occurrence). -/
theorem list_index_of_mem (l : List Char) (c : Char) (h : c ∈ l) :
    list_index l c = some (l.indexOf c) := by
  induction l with
  | nil => simp at h
  | cons a as ih =>
    by_cases hac : a = c
    · simp [list_index, hac, List.indexOf_cons]
    · have hmem : c ∈ as := by
        rcases List.mem_cons.mp h with h1 | h2
        · exact absurd h1.symm hac
        · exact h2
      have hbeq : (a == c) = false := by
        simp [hac]
      simp [list_index, hac, List.indexOf_cons, hbeq, ih hmem]

/-- When every symbol is present, the index loop of `get_sequence_score`
produces the positions of the symbols in the alphabet. -/
theorem lookupIndices_ok (amino : List Char) (seq : List Char)
    (h : ∀ ch ∈ seq, ch ∈ amino) :
    lookupIndices amino seq = .ok (seq.map (fun ch => amino.indexOf ch)) := by
  induction seq with
  | nil => simp [lookupIndices]
  | cons c rest ih =>
    have hc : c ∈ amino := h c (List.mem_cons_self c rest)
    have hrest : ∀ ch ∈ rest, ch ∈ amino := fun ch hch => h ch (List.mem_cons_of_mem c hch)
    simp [lookupIndices, list_index_of_mem amino c hc, ih hrest]

/-- The index loop raises an invalid-symbol error exactly when some
sequence symbol is absent from the alphabet. -/
theorem lookupIndices_error_iff (amino : List Char) (seq : List Char) :
    (∃ ch, lookupIndices amino seq = .error (.symbolNotFound ch)) ↔
      ∃ ch ∈ seq, ch ∉ amino := by
  induction seq with
  | nil => simp [lookupIndices]
  | cons c rest ih =>
    simp only [lookupIndices]
    cases hli : list_index amino c with
    | none =>
      have hcn : c ∉ amino := (list_index_eq_none_iff amino c).mp hli
      dsimp only
      constructor
      · intro _
        exact ⟨c, List.mem_cons_self c rest, hcn⟩
      · intro _
        exact ⟨c, rfl⟩
    | some i =>
      have hmem : c ∈ amino := by
        by_contra hcn
        rw [(list_index_eq_none_iff amino c).mpr hcn] at hli
        exact Option.noConfusion hli
      dsimp only
      have hstep : ∀ ch, ((match lookupIndices amino rest with
          | Except.error e => (Except.error e : Except ScoreError (List ℕ))
          | Except.ok is => Except.ok (i :: is)) = Except.error (ScoreError.symbolNotFound ch))
          ↔ lookupIndices amino rest = Except.error (ScoreError.symbolNotFound ch) := by
        intro ch
        cases lookupIndices amino rest with
        | error e => simp
        | ok is => simp
      constructor
      · rintro ⟨ch, hch⟩
        rcases ih.mp ⟨ch, (hstep ch).mp hch⟩ with ⟨ch2, hch2, hn⟩
        exact ⟨ch2, List.mem_cons_of_mem c hch2, hn⟩
      · rintro ⟨ch, hch, hn⟩
        rcases List.mem_cons.mp hch with h1 | h2
        · subst h1; exact absurd hmem hn
        · rcases ih.mpr ⟨ch, h2, hn⟩ with ⟨ch2, hch2⟩
          exact ⟨ch2, (hstep ch2).mpr hch2⟩

/-- C8: on a sequence of matching length whose symbols are all present,
`get_sequence_score` returns (the value whose `log2` the code returns,
i.e.) the product over all columns `c` of `matrix[row(sequence[c])][c]`,
where `row(x)` is the position of `x` in the alphabet; and it fails with
an invalid-symbol lookup error if and only if some sequence symbol is
absent from the alphabet. -/
theorem get_sequence_score_spec (pssm : List (List ℚ)) (aminoacids : List Char)
    (sequence : List Char) :
    (sequence.length = cSize pssm → (∀ ch ∈ sequence, ch ∈ aminoacids) →
      get_sequence_score pssm aminoacids sequence =
        .ok (((List.range (cSize pssm)).map
          (fun c => colVal pssm (aminoacids.indexOf (sequence.getD c ' ')) c)).prod)) ∧
    ((∃ ch, get_sequence_score pssm aminoacids sequence
        = .error (.symbolNotFound ch)) ↔ ∃ ch ∈ sequence, ch ∉ aminoacids) := by
  constructor
  · intro hlen hall
    unfold get_sequence_score
    rw [lookupIndices_ok aminoacids sequence hall]
    dsimp only
    rw [if_pos (by simpa using hlen)]
    congr 1
    apply congrArg List.prod
    apply List.map_congr_left
    intro c hc
    have hclt : c < sequence.length := by
      rw [hlen]; exact List.mem_range.mp hc
    rw [List.getD_eq_getElem _ _ (by simpa using hclt),
        List.getD_eq_getElem _ _ hclt, List.getElem_map]
  · unfold get_sequence_score
    rw [← lookupIndices_error_iff aminoacids sequence]
    cases hlk : lookupIndices aminoacids sequence with
    | error e =>
      dsimp only
      constructor
      · rintro ⟨ch, hch⟩
        exact ⟨ch, by simpa using hch⟩
      · rintro ⟨ch, hch⟩
        exact ⟨ch, by simpa using hch⟩
    | ok is =>
      dsimp only
      constructor
      · rintro ⟨ch, hch⟩
        split at hch
        · exact absurd hch (by simp)
        · exact absurd hch (by simp)
      · rintro ⟨ch, hch⟩
        exact absurd hch (by simp)

/-- Witness for `get_sequence_score_spec`: the positive part evaluated on
a concrete matrix and sequence. -/
theorem get_sequence_score_spec_witness :
    get_sequence_score pssmSKA aminoSKA "KSSSSSSSSS".toList =
      .ok (((List.range (cSize pssmSKA)).map
        (fun c => colVal pssmSKA (aminoSKA.indexOf ("KSSSSSSSSS".toList.getD c ' ')) c)).prod) :=
  (get_sequence_score_spec pssmSKA aminoSKA "KSSSSSSSSS".toList).1 (by decide) (by decide)

/-! ## C5 — characterisation of the validity predicate -/

/-- Truth table of the three-test rejection cascade used by
`is_valid_sequence`. -/
theorem ite3_false_iff (P1 P2 P3 : Prop) [Decidable P1] [Decidable P2] [Decidable P3] :
    ((if P1 then false else if P2 then false else if P3 then false else true) = false)
      ↔ (P1 ∨ P2 ∨ P3) := by
  by_cases h1 : P1
  · simp [h1]
  · by_cases h2 : P2
    · simp [h1, h2]
    · by_cases h3 : P3
      · simp [h1, h2, h3]
      · simp [h1, h2, h3]

/-- C5: for length-10 sequences of single-character symbols,
`is_valid_sequence` returns `false` iff the sequence contains `'C'`, or
index 5 is not `'S'`, or `'K'` occurs at index 4 or at index 6, or
`'K'`/`'R'` occurs in both `s[0:5]` and `s[6:10]`.  (The code also
rejects `'K'` at index 5, but that case is subsumed by "index 5 is not
`'S'`".) -/
theorem is_valid_sequence_characterization (s : List Char) (hlen : s.length = 10) :
    is_valid_sequence s = false ↔
      ('C' ∈ s ∨ s.getD 5 ' ' ≠ 'S' ∨ 'K' = s.getD 4 ' ' ∨ 'K' = s.getD 6 ' ' ∨
        (('K' ∈ s.take 5 ∨ 'R' ∈ s.take 5) ∧ ('K' ∈ s.drop 6 ∨ 'R' ∈ s.drop 6))) := by
  rcases s with _ | ⟨a, s⟩; · simp at hlen
  rcases s with _ | ⟨b, s⟩; · simp at hlen
  rcases s with _ | ⟨c, s⟩; · simp at hlen
  rcases s with _ | ⟨d, s⟩; · simp at hlen
  rcases s with _ | ⟨e, s⟩; · simp at hlen
  rcases s with _ | ⟨f, s⟩; · simp at hlen
  rcases s with _ | ⟨g, s⟩; · simp at hlen
  rcases s with _ | ⟨h, s⟩; · simp at hlen
  rcases s with _ | ⟨i, s⟩; · simp at hlen
  rcases s with _ | ⟨j, s⟩; · simp at hlen
  have hnil : s = [] := by
    have h0 : s.length = 0 := by simpa using hlen
    exact List.eq_nil_of_length_eq_zero h0
  subst hnil
  by_cases hf : f = 'S'
  · subst hf
    have hKS : ('K' : Char) = 'S' ↔ False := by decide
    simp only [is_valid_sequence, List.mem_cons, List.not_mem_nil, List.length_cons,
      List.length_nil, List.getD_cons_succ, List.getD_cons_zero, List.drop, List.take,
      or_false, ne_eq, hKS, false_or, not_true, not_false_eq_true, true_and,
      Nat.reduceAdd, if_false_left, if_false_right]
    refine (ite3_false_iff _ _ _).trans ?_
    constructor
    · rintro (h1 | (h2 | h2) | h3)
      · exact Or.inl h1
      · exact Or.inr (Or.inl h2)
      · exact Or.inr (Or.inr (Or.inl h2))
      · exact Or.inr (Or.inr (Or.inr h3))
    · rintro (h1 | h2 | h2 | h3)
      · exact Or.inl h1
      · exact Or.inr (Or.inl (Or.inl h2))
      · exact Or.inr (Or.inl (Or.inr h2))
      · exact Or.inr (Or.inr h3)
  · simp [is_valid_sequence, hf]

/-- Witness for `is_valid_sequence_characterization`, at the spec's own
example `"RAAAASAAAR"` (charged residue in both halves). -/
theorem is_valid_sequence_characterization_witness :
    "RAAAASAAAR".toList.length = 10 ∧
    (is_valid_sequence "RAAAASAAAR".toList = false ↔
      ('C' ∈ "RAAAASAAAR".toList ∨ "RAAAASAAAR".toList.getD 5 ' ' ≠ 'S' ∨
        'K' = "RAAAASAAAR".toList.getD 4 ' ' ∨ 'K' = "RAAAASAAAR".toList.getD 6 ' ' ∨
        (('K' ∈ "RAAAASAAAR".toList.take 5 ∨ 'R' ∈ "RAAAASAAAR".toList.take 5) ∧
         ('K' ∈ "RAAAASAAAR".toList.drop 6 ∨ 'R' ∈ "RAAAASAAAR".toList.drop 6)))) :=
  ⟨by decide, is_valid_sequence_characterization _ (by decide)⟩

/-! ## Generic facts about the expansion fold and the pop -/

/-- Helper: `List.getD` ignores `set` at a different position. -/
theorem getD_set_ne {α : Type} (l : List α) (i j : ℕ) (a d : α) (hij : i ≠ j) :
    (l.set i a).getD j d = l.getD j d := by
  by_cases hj : j < l.length
  · rw [List.getD_eq_getElem _ _ (by simpa using hj), List.getD_eq_getElem _ _ hj,
        List.getElem_set_ne hij]
  · rw [List.getD_eq_default, List.getD_eq_default]
    · omega
    · simpa using by omega

/-- Helper: `List.getD` of `set` at the written position, in bounds. -/
theorem getD_set_self {α : Type} (l : List α) (i : ℕ) (a d : α) (hi : i < l.length) :
    (l.set i a).getD i d = a := by
  rw [List.getD_eq_getElem _ _ (by simpa using hi), List.getElem_set_self]

/-- Anatomy of the neighbour-expansion fold: the visited set only grows,
and every queue element is either an old one or a freshly pushed
neighbour of `idx` that was, and now is, recorded in `visited`. -/
theorem expand_fold_spec (pssm : List (List ℚ)) (aminoacids : List Char)
    (descending : Bool) (idx : List ℕ) (cols : List ℕ) (st : SearchState) :
    (∀ v ∈ st.visited, v ∈ (cols.foldl (expandCol pssm aminoacids descending idx) st).visited) ∧
    (∀ y ∈ (cols.foldl (expandCol pssm aminoacids descending idx) st).pq,
      y ∈ st.pq ∨
        (pushedFrom pssm aminoacids descending idx cols y ∧ y.2.2 ∉ st.visited ∧
          y.2.2 ∈ (cols.foldl (expandCol pssm aminoacids descending idx) st).visited)) := by
  induction cols generalizing st with
  | nil => exact ⟨fun v hv => hv, fun y hy => Or.inl hy⟩
  | cons c cols ih =>
    rw [List.foldl_cons]
    set st1 := expandCol pssm aminoacids descending idx st c with hst1
    obtain ⟨ih1, ih2⟩ := ih st1
    have hcases : (st1.pq = st.pq ∧ st1.visited = st.visited) ∨
        (c ≠ 5 ∧ idx.getD c 0 + 1 < rSize pssm ∧
          (idx.set c (idx.getD c 0 + 1)) ∉ st.visited ∧
          st1.pq = (stateKey pssm descending (idx.set c (idx.getD c 0 + 1)),
                    stateSeq pssm aminoacids descending (idx.set c (idx.getD c 0 + 1)),
                    idx.set c (idx.getD c 0 + 1)) :: st.pq ∧
          st1.visited = (idx.set c (idx.getD c 0 + 1)) :: st.visited) := by
      rw [hst1]
      unfold expandCol
      by_cases h5 : c = 5
      · rw [if_pos h5]; exact Or.inl ⟨rfl, rfl⟩
      · rw [if_neg h5]
        by_cases hlt : idx.getD c 0 + 1 < rSize pssm
        · rw [if_pos hlt]
          by_cases hvis : (idx.set c (idx.getD c 0 + 1)) ∈ st.visited
          · rw [if_pos hvis]; exact Or.inl ⟨rfl, rfl⟩
          · rw [if_neg hvis]
            exact Or.inr ⟨h5, hlt, hvis, rfl, rfl⟩
        · rw [if_neg hlt]; exact Or.inl ⟨rfl, rfl⟩
    rcases hcases with ⟨hpq, hvis⟩ | ⟨h5, hlt, hnin, hpq, hvis⟩
    · constructor
      · intro v hv
        exact ih1 v (by rw [hvis]; exact hv)
      · intro y hy
        rcases ih2 y hy with h | ⟨hp, hn, hvv⟩
        · rw [hpq] at h; exact Or.inl h
        · refine Or.inr ⟨?_, by rw [hvis] at hn; exact hn, hvv⟩
          obtain ⟨col, hcol, rest⟩ := hp
          exact ⟨col, List.mem_cons_of_mem c hcol, rest⟩
    · constructor
      · intro v hv
        exact ih1 v (by rw [hvis]; exact List.mem_cons_of_mem _ hv)
      · intro y hy
        rcases ih2 y hy with h | ⟨hp, hn, hvv⟩
        · rw [hpq] at h
          rcases List.mem_cons.mp h with h1 | h1
          · refine Or.inr ⟨⟨c, List.mem_cons_self c cols, h5, hlt, by rw [h1], by rw [h1],
              by rw [h1]⟩, ?_, ?_⟩
            · rw [h1]
              exact hnin
            · rw [h1]
              exact ih1 _ (by rw [hvis]; exact List.mem_cons_self _ _)
          · exact Or.inl h1
        · refine Or.inr ⟨?_, ?_, hvv⟩
          · obtain ⟨col, hcol, rest⟩ := hp
            exact ⟨col, List.mem_cons_of_mem c hcol, rest⟩
          · intro hmem
            exact hn (by rw [hvis]; exact List.mem_cons_of_mem _ hmem)

/-- The popped element together with the remaining queue is a permutation
of the original queue. -/
theorem popMin_perm : ∀ {l : List PQState} {m : PQState} {rest : List PQState},
    popMin l = some (m, rest) → (m :: rest).Perm l := by
  intro l
  induction l with
  | nil => intro m rest h; simp [popMin] at h
  | cons x xs ih =>
    intro m rest h
    unfold popMin at h
    cases hxs : popMin xs with
    | none =>
      rw [hxs] at h
      simp only [Option.some.injEq, Prod.mk.injEq] at h
      obtain ⟨h1, h2⟩ := h
      have hxsnil : xs = [] := by
        cases xs with
        | nil => rfl
        | cons a as => exact absurd hxs (popMin_ne_none a as)
      rw [← h1, ← h2, hxsnil]
    | some p =>
      obtain ⟨m', rest'⟩ := p
      rw [hxs] at h
      dsimp only at h
      split at h
      · simp only [Option.some.injEq, Prod.mk.injEq] at h
        obtain ⟨h1, h2⟩ := h
        rw [← h1, ← h2]
        exact (List.Perm.swap x m' rest').trans ((ih hxs).cons x)
      · simp only [Option.some.injEq, Prod.mk.injEq] at h
        obtain ⟨h1, h2⟩ := h
        rw [← h1, ← h2]

/-- A `stateLtB`-comparison that returns `true` implies the first
component is not larger. -/
theorem stateLtB_true_fst {a b : PQState} (h : stateLtB a b = true) : a.1 ≤ b.1 := by
  unfold stateLtB at h
  by_cases h1 : a.1 < b.1
  · exact le_of_lt h1
  · rw [if_neg h1] at h
    by_cases h2 : b.1 < a.1
    · rw [if_pos h2] at h; exact absurd h (by simp)
    · exact le_of_not_lt h2

/-- A `stateLtB`-comparison that returns `false` implies the first
component is not smaller. -/
theorem stateLtB_false_fst {a b : PQState} (h : stateLtB a b = false) : b.1 ≤ a.1 := by
  unfold stateLtB at h
  by_cases h1 : a.1 < b.1
  · rw [if_pos h1] at h; exact absurd h (by simp)
  · exact le_of_not_lt h1

/-- The popped element has the smallest score in the queue. -/
theorem popMin_fst_le : ∀ {l : List PQState} {m : PQState} {rest : List PQState},
    popMin l = some (m, rest) → ∀ y ∈ l, m.1 ≤ y.1 := by
  intro l
  induction l with
  | nil => intro m rest h; simp [popMin] at h
  | cons x xs ih =>
    intro m rest h y hy
    unfold popMin at h
    cases hxs : popMin xs with
    | none =>
      rw [hxs] at h
      simp only [Option.some.injEq, Prod.mk.injEq] at h
      obtain ⟨h1, _⟩ := h
      have hxsnil : xs = [] := by
        cases xs with
        | nil => rfl
        | cons a as => exact absurd hxs (popMin_ne_none a as)
      rw [hxsnil] at hy
      rw [← h1]
      rcases List.mem_cons.mp hy with h2 | h2
      · rw [h2]
      · simp at h2
    | some p =>
      obtain ⟨m', rest'⟩ := p
      rw [hxs] at h
      dsimp only at h
      split at h
      · rename_i hlt
        simp only [Option.some.injEq, Prod.mk.injEq] at h
        obtain ⟨h1, _⟩ := h
        rw [← h1]
        rcases List.mem_cons.mp hy with h2 | h2
        · rw [h2]; exact stateLtB_true_fst hlt
        · exact ih hxs y h2
      · rename_i hnlt
        simp only [Option.some.injEq, Prod.mk.injEq] at h
        obtain ⟨h1, _⟩ := h
        rw [← h1]
        rcases List.mem_cons.mp hy with h2 | h2
        · rw [h2]
        · exact le_trans (stateLtB_false_fst (by simpa using hnlt)) (ih hxs y h2)

/-- Inversion of one loop iteration: the step pops the queue minimum and
expands it over all columns. -/
theorem greedyStep_inv {pssm : List (List ℚ)} {aminoacids : List Char} {descending : Bool}
    {st : SearchState} {top : PQState} {st' : SearchState}
    (h : greedyStep pssm aminoacids descending st = some (top, st')) :
    ∃ rest, popMin st.pq = some (top, rest) ∧
      st' = (List.range (cSize pssm)).foldl (expandCol pssm aminoacids descending top.2.2)
              { pq := rest, visited := st.visited } := by
  unfold greedyStep at h
  cases hp : popMin st.pq with
  | none => rw [hp] at h; exact absurd h (by simp)
  | some p =>
    obtain ⟨m, rest⟩ := p
    rw [hp] at h
    simp only [Option.some.injEq, Prod.mk.injEq] at h
    obtain ⟨h1, h2⟩ := h
    subst h1
    exact ⟨rest, rfl, h2.symm⟩

/-- If a rank vector is recorded in `visited` while absent from the
queue, it is never popped: popping only removes queue elements, and a
push is guarded by membership in the (only growing) `visited` set. -/
theorem visited_blocked_never_popped (pssm : List (List ℚ)) (aminoacids : List Char)
    (descending : Bool) (v : List ℕ) :
    ∀ (n : ℕ) (st : SearchState), v ∈ st.visited → (∀ y ∈ st.pq, y.2.2 ≠ v) →
      v ∉ (greedyRun pssm aminoacids descending n st).map (·.2.2) := by
  intro n
  induction n with
  | zero => intro st _ _; simp [greedyRun]
  | succ n ih =>
    intro st hv hpq
    unfold greedyRun
    cases h : greedyStep pssm aminoacids descending st with
    | none => simp
    | some p =>
      obtain ⟨top, st'⟩ := p
      obtain ⟨rest, hpop, hst'⟩ := greedyStep_inv h
      have hperm := popMin_perm hpop
      have htop : top ∈ st.pq := hperm.mem_iff.mp (List.mem_cons_self _ _)
      obtain ⟨hmono, hsplit⟩ := expand_fold_spec pssm aminoacids descending top.2.2
        (List.range (cSize pssm)) { pq := rest, visited := st.visited }
      rw [← hst'] at hmono hsplit
      simp only [List.map_cons, List.mem_cons]
      push_neg
      constructor
      · exact fun hc => hpq top htop hc.symm
      · apply ih st'
        · exact hmono v hv
        · intro y hy
          rcases hsplit y hy with hold | ⟨_, hnin, _⟩
          · exact hpq y (hperm.mem_iff.mp (List.mem_cons_of_mem _ hold))
          · exact fun hc => hnin (hc ▸ hv)

/-- C1 (code bug): on `pssmSKA` the rank vector `e6Vec = (0,…,0,1,0,0,0)`
(increment column 6) is reachable from the all-zero root in one step, yet
no amount of fuel ever pops it: the seed line `visited =
set([tuple(pssm_indices)])` stores the *row*-index tuple
`greedy_sort[[0]*10, cols]`, which on this matrix coincides with `e6Vec`,
so the push of `e6Vec` is blocked forever.  In particular the seed does
not mark the all-zero rank vector (the root) as visited, and the claim
that every reachable rank vector is popped exactly once fails. -/
theorem reachable_state_never_popped :
    ReachableFromRoot 3 10 e6Vec ∧
    initPssmIndices pssmSKA true = e6Vec ∧
    initIndices pssmSKA ∉ (initState pssmSKA aminoSKA true).visited ∧
    ∀ fuel, e6Vec ∉ (greedyTrace pssmSKA aminoSKA true fuel).map (·.2.2) := by
  refine ⟨?_, by decide, by decide, ?_⟩
  · refine Relation.ReflTransGen.single ?_
    refine ⟨6, by norm_num, by norm_num, ?_, ?_⟩
    · decide
    · decide
  · intro fuel
    apply visited_blocked_never_popped
    · decide
    · intro y hy
      have : y = ((stateKey pssmSKA true (initIndices pssmSKA),
          stateSeq pssmSKA aminoSKA true (initIndices pssmSKA),
          initIndices pssmSKA) : PQState) := by
        simpa [initState] using hy
      rw [this]
      decide

/-- Helper: every entry of the all-zero rank vector reads `0`. -/
theorem getD_replicate_zero (n i : ℕ) : (List.replicate n (0 : ℕ)).getD i 0 = 0 := by
  by_cases h : i < n
  · rw [List.getD_eq_getElem _ _ (by simpa using h)]
    simp
  · rw [List.getD_eq_default]
    simpa using by omega

/-- Monotonicity of `pushedFrom` in the column list. -/
theorem pushedFrom_mono {pssm : List (List ℚ)} {aminoacids : List Char} {descending : Bool}
    {idx : List ℕ} {c : ℕ} {cols : List ℕ} {y : PQState}
    (h : pushedFrom pssm aminoacids descending idx cols y) :
    pushedFrom pssm aminoacids descending idx (c :: cols) y := by
  obtain ⟨col, hcol, rest⟩ := h
  exact ⟨col, List.mem_cons_of_mem c hcol, rest⟩

/-- The visited-set discipline through one expansion fold: appended to any
fixed list `P` of already-popped vectors, the queue's rank vectors stay
duplicate-free, and every vector of `P` or of the queue stays recorded in
`visited` (or is the root `rt`, which is never pushed). -/
theorem expand_fold_nodup (pssm : List (List ℚ)) (aminoacids : List Char)
    (descending : Bool) (idx : List ℕ) (cols : List ℕ) (st : SearchState)
    (P : List (List ℕ)) (rt : List ℕ)
    (hrt : ∀ y : PQState, pushedFrom pssm aminoacids descending idx cols y → y.2.2 ≠ rt)
    (hnd : (P ++ st.pq.map (·.2.2)).Nodup)
    (hcont : ∀ w ∈ P ++ st.pq.map (·.2.2), w ∈ st.visited ∨ w = rt) :
    (P ++ ((cols.foldl (expandCol pssm aminoacids descending idx) st).pq.map (·.2.2))).Nodup ∧
    (∀ w ∈ P ++ ((cols.foldl (expandCol pssm aminoacids descending idx) st).pq.map (·.2.2)),
      w ∈ (cols.foldl (expandCol pssm aminoacids descending idx) st).visited ∨ w = rt) := by
  induction cols generalizing st with
  | nil => exact ⟨hnd, hcont⟩
  | cons c cols ih =>
    rw [List.foldl_cons]
    have hcases : (expandCol pssm aminoacids descending idx st c = st) ∨
        (c ≠ 5 ∧ idx.getD c 0 + 1 < rSize pssm ∧
          (idx.set c (idx.getD c 0 + 1)) ∉ st.visited ∧
          expandCol pssm aminoacids descending idx st c =
            { pq := (stateKey pssm descending (idx.set c (idx.getD c 0 + 1)),
                     stateSeq pssm aminoacids descending (idx.set c (idx.getD c 0 + 1)),
                     idx.set c (idx.getD c 0 + 1)) :: st.pq,
              visited := (idx.set c (idx.getD c 0 + 1)) :: st.visited }) := by
      unfold expandCol
      by_cases h5 : c = 5
      · rw [if_pos h5]; exact Or.inl rfl
      · rw [if_neg h5]
        by_cases hlt : idx.getD c 0 + 1 < rSize pssm
        · rw [if_pos hlt]
          by_cases hvis : (idx.set c (idx.getD c 0 + 1)) ∈ st.visited
          · rw [if_pos hvis]; exact Or.inl rfl
          · rw [if_neg hvis]
            exact Or.inr ⟨h5, hlt, hvis, rfl⟩
        · rw [if_neg hlt]; exact Or.inl rfl
    have hrt' : ∀ y : PQState, pushedFrom pssm aminoacids descending idx cols y → y.2.2 ≠ rt :=
      fun y hy => hrt y (pushedFrom_mono hy)
    rcases hcases with heq | ⟨h5, hlt, hnin, heq⟩
    · rw [heq]
      exact ih st hrt' hnd hcont
    · rw [heq]
      set newIdx := idx.set c (idx.getD c 0 + 1) with hnew
      set st1 : SearchState :=
        { pq := (stateKey pssm descending newIdx,
                 stateSeq pssm aminoacids descending newIdx, newIdx) :: st.pq,
          visited := newIdx :: st.visited } with hst1
      have hnotin : newIdx ∉ P ++ st.pq.map (·.2.2) := by
        intro hmem
        rcases hcont newIdx hmem with h1 | h1
        · exact hnin h1
        · exact hrt (stateKey pssm descending newIdx,
            stateSeq pssm aminoacids descending newIdx, newIdx)
            ⟨c, List.mem_cons_self c cols, h5, hlt, rfl, rfl, rfl⟩ h1
      have hnd1 : (P ++ st1.pq.map (·.2.2)).Nodup := by
        rw [hst1]
        simp only [List.map_cons]
        refine (List.perm_middle.nodup_iff).mpr ?_
        exact List.Nodup.cons hnotin hnd
      have hcont1 : ∀ w ∈ P ++ st1.pq.map (·.2.2), w ∈ st1.visited ∨ w = rt := by
        intro w hw
        rw [hst1] at hw
        simp only [List.map_cons] at hw
        rcases List.mem_cons.mp ((List.perm_middle.mem_iff).mp hw) with h1 | h1
        · left
          rw [hst1, h1]
          exact List.mem_cons_self _ _
        · rcases hcont w h1 with h2 | h2
          · left
            rw [hst1]
            exact List.mem_cons_of_mem _ h2
          · right; exact h2
      exact ih st1 hrt' hnd1 hcont1

/-- Across any run segment, the popped rank vectors (appended to any
previously popped list `P` satisfying the invariant) are duplicate-free. -/
theorem run_nodup (pssm : List (List ℚ)) (aminoacids : List Char) (descending : Bool) :
    ∀ (n : ℕ) (st : SearchState) (P : List (List ℕ)),
      (P ++ st.pq.map (·.2.2)).Nodup →
      (∀ w ∈ P ++ st.pq.map (·.2.2), w ∈ st.visited ∨ w = initIndices pssm) →
      (∀ y ∈ st.pq, y.2.2.length = cSize pssm) →
      (P ++ (greedyRun pssm aminoacids descending n st).map (·.2.2)).Nodup := by
  intro n
  induction n with
  | zero =>
    intro st P hnd _ _
    simpa [greedyRun] using (List.Nodup.of_append_left hnd)
  | succ n ih =>
    intro st P hnd hcont hlen
    unfold greedyRun
    cases h : greedyStep pssm aminoacids descending st with
    | none => simpa using (List.Nodup.of_append_left hnd)
    | some p =>
      obtain ⟨top, st'⟩ := p
      obtain ⟨rest, hpop, hst'⟩ := greedyStep_inv h
      have hperm := popMin_perm hpop
      have htop : top ∈ st.pq := hperm.mem_iff.mp (List.mem_cons_self _ _)
      have htoplen : top.2.2.length = cSize pssm := hlen top htop
      -- move from (st.pq) to (top :: rest)
      have hpermmap : (top.2.2 :: rest.map (·.2.2)).Perm (st.pq.map (·.2.2)) := by
        simpa using hperm.map (·.2.2)
      have hndmid : ((P ++ [top.2.2]) ++ rest.map (·.2.2)).Nodup := by
        have h1 : (P ++ (top.2.2 :: rest.map (·.2.2))).Nodup :=
          ((hpermmap.append_left P).nodup_iff).mpr hnd
        simpa [List.append_assoc, List.singleton_append] using h1
      have hcontmid : ∀ w ∈ (P ++ [top.2.2]) ++ rest.map (·.2.2),
          w ∈ st.visited ∨ w = initIndices pssm := by
        intro w hw
        apply hcont
        have : w ∈ P ++ (top.2.2 :: rest.map (·.2.2)) := by
          simpa [List.append_assoc, List.singleton_append] using hw
        rcases List.mem_append.mp this with h1 | h1
        · exact List.mem_append.mpr (Or.inl h1)
        · exact List.mem_append.mpr (Or.inr (hpermmap.mem_iff.mp h1))
      have hrt : ∀ y : PQState,
          pushedFrom pssm aminoacids descending top.2.2 (List.range (cSize pssm)) y →
          y.2.2 ≠ initIndices pssm := by
        rintro y ⟨col, hcol, _, _, hset, _⟩ hceq
        have hcollt : col < cSize pssm := List.mem_range.mp hcol
        have : y.2.2.getD col 0 = top.2.2.getD col 0 + 1 := by
          rw [hset]
          exact getD_set_self _ _ _ _ (by rw [htoplen]; exact hcollt)
        rw [hceq] at this
        unfold initIndices at this
        rw [getD_replicate_zero] at this
        omega
      obtain ⟨hnd', hcont'⟩ := expand_fold_nodup pssm aminoacids descending top.2.2
        (List.range (cSize pssm)) { pq := rest, visited := st.visited } (P ++ [top.2.2])
        (initIndices pssm) hrt hndmid hcontmid
      rw [← hst'] at hnd' hcont'
      have hlen' : ∀ y ∈ st'.pq, y.2.2.length = cSize pssm := by
        intro y hy
        obtain ⟨_, hsplit⟩ := expand_fold_spec pssm aminoacids descending top.2.2
          (List.range (cSize pssm)) { pq := rest, visited := st.visited }
        rw [← hst'] at hsplit
        rcases hsplit y hy with h1 | ⟨⟨col, _, _, _, hset, _⟩, _, _⟩
        · exact hlen y (hperm.mem_iff.mp (List.mem_cons_of_mem _ h1))
        · rw [hset]
          rw [List.length_set]
          exact htoplen
      have := ih st' (P ++ [top.2.2]) hnd' hcont' hlen'
      simpa [List.append_assoc, List.singleton_append] using this

/-- C7: across one full run (any fuel), no rank vector is popped from the
priority queue more than once; the visited-set discipline (push only if
absent, record at push time) prevents duplicate expansion. -/
theorem no_rank_vector_popped_twice (pssm : List (List ℚ)) (aminoacids : List Char)
    (descending : Bool) (fuel : ℕ) :
    ((greedyTrace pssm aminoacids descending fuel).map (·.2.2)).Nodup := by
  have h := run_nodup pssm aminoacids descending fuel
    (initState pssm aminoacids descending) [] ?_ ?_ ?_
  · simpa using h
  · simp [initState]
  · intro w hw
    simp only [initState, List.nil_append, List.map_cons, List.map_nil] at hw
    rcases List.mem_cons.mp hw with h1 | h1
    · right; exact h1
    · simp at h1
  · intro y hy
    simp only [initState, List.mem_cons] at hy
    rcases hy with h1 | h1
    · rw [h1]
      simp [initIndices]
    · simp at h1

/-- Helper: indexing a map over `List.range`. -/
theorem getD_map_range {α : Type} (f : ℕ → α) (n i : ℕ) (d : α) (hi : i < n) :
    ((List.range n).map f).getD i d = f i := by
  rw [List.getD_eq_getElem _ _ (by simpa using hi), List.getElem_map, List.getElem_range]

/-- The centre column's rank is `0` in the root and is never incremented,
so it is `0` for every popped state and every state in the queue. -/
theorem run_center_rank (pssm : List (List ℚ)) (aminoacids : List Char) (descending : Bool) :
    ∀ (n : ℕ) (st : SearchState), (∀ y ∈ st.pq, y.2.2.getD 5 0 = 0) →
      (∀ t ∈ greedyRun pssm aminoacids descending n st, t.2.2.getD 5 0 = 0) ∧
      (∀ y ∈ (runState pssm aminoacids descending n st).pq, y.2.2.getD 5 0 = 0) := by
  intro n
  induction n with
  | zero =>
    intro st hst
    constructor
    · intro t ht; simp [greedyRun] at ht
    · intro y hy; exact hst y (by simpa [runState] using hy)
  | succ n ih =>
    intro st hst
    unfold greedyRun runState
    cases h : greedyStep pssm aminoacids descending st with
    | none =>
      constructor
      · intro t ht; simp at ht
      · intro y hy; exact hst y hy
    | some p =>
      obtain ⟨top, st'⟩ := p
      obtain ⟨rest, hpop, hst'⟩ := greedyStep_inv h
      have hperm := popMin_perm hpop
      have htop : top ∈ st.pq := hperm.mem_iff.mp (List.mem_cons_self _ _)
      have hst'inv : ∀ y ∈ st'.pq, y.2.2.getD 5 0 = 0 := by
        intro y hy
        obtain ⟨_, hsplit⟩ := expand_fold_spec pssm aminoacids descending top.2.2
          (List.range (cSize pssm)) { pq := rest, visited := st.visited }
        rw [← hst'] at hsplit
        rcases hsplit y hy with h1 | ⟨⟨col, _, h5, _, hset, _⟩, _, _⟩
        · exact hst y (hperm.mem_iff.mp (List.mem_cons_of_mem _ h1))
        · rw [hset, getD_set_ne _ _ _ _ _ h5]
          exact hst top htop
      obtain ⟨ihrun, ihstate⟩ := ih st' hst'inv
      constructor
      · intro t ht
        rcases List.mem_cons.mp ht with h1 | h1
        · rw [h1]; exact hst top htop
        · exact ihrun t h1
      · exact ihstate

/-- C10: every state popped (and every state still enqueued) during a run
has rank `0` at column index 5, and consequently the column-5 factor of
its internal score is the fixed entry `pssm[greedy_sort[0,5], 5]` chosen
once for the whole run. -/
theorem center_rank_always_zero (pssm : List (List ℚ)) (aminoacids : List Char)
    (descending : Bool) (fuel : ℕ) (t : PQState)
    (ht : t ∈ greedyTrace pssm aminoacids descending fuel
        ∨ t ∈ (runState pssm aminoacids descending fuel
                (initState pssm aminoacids descending)).pq) :
    t.2.2.getD 5 0 = 0 ∧
    (5 < cSize pssm →
      (stateVals pssm descending t.2.2).getD 5 0
        = colVal pssm ((greedySortCol pssm descending 5).getD 0 0) 5) := by
  have hinit : ∀ y ∈ (initState pssm aminoacids descending).pq, y.2.2.getD 5 0 = 0 := by
    intro y hy
    simp only [initState, List.mem_cons] at hy
    rcases hy with h1 | h1
    · rw [h1]
      exact getD_replicate_zero _ _
    · simp at h1
  obtain ⟨hrun, hstate⟩ := run_center_rank pssm aminoacids descending fuel
    (initState pssm aminoacids descending) hinit
  have hzero : t.2.2.getD 5 0 = 0 := by
    rcases ht with h1 | h1
    · exact hrun t h1
    · exact hstate t h1
  refine ⟨hzero, fun h5C => ?_⟩
  unfold stateVals
  rw [getD_map_range _ _ _ _ h5C, hzero]

/-- Invariance: `GoodState` is preserved by the search loop. -/
theorem run_good (pssm : List (List ℚ)) (aminoacids : List Char) (descending : Bool) :
    ∀ (n : ℕ) (st : SearchState),
      (∀ y ∈ st.pq, GoodState pssm aminoacids descending y) →
      (∀ t ∈ greedyRun pssm aminoacids descending n st, GoodState pssm aminoacids descending t) ∧
      (∀ y ∈ (runState pssm aminoacids descending n st).pq, GoodState pssm aminoacids descending y) := by
  intro n
  induction n with
  | zero =>
    intro st hst
    constructor
    · intro t ht; simp [greedyRun] at ht
    · intro y hy; exact hst y (by simpa [runState] using hy)
  | succ n ih =>
    intro st hst
    unfold greedyRun runState
    cases h : greedyStep pssm aminoacids descending st with
    | none =>
      constructor
      · intro t ht; simp at ht
      · intro y hy; exact hst y hy
    | some p =>
      obtain ⟨top, st'⟩ := p
      obtain ⟨rest, hpop, hst'⟩ := greedyStep_inv h
      have hperm := popMin_perm hpop
      have htop : top ∈ st.pq := hperm.mem_iff.mp (List.mem_cons_self _ _)
      obtain ⟨_, htopseq, htoplen, htopbound⟩ := hst top htop
      have hst'inv : ∀ y ∈ st'.pq, GoodState pssm aminoacids descending y := by
        intro y hy
        obtain ⟨_, hsplit⟩ := expand_fold_spec pssm aminoacids descending top.2.2
          (List.range (cSize pssm)) { pq := rest, visited := st.visited }
        rw [← hst'] at hsplit
        rcases hsplit y hy with h1 | ⟨⟨col, hcol, _, hlt, hset, hkey, hseq⟩, _, _⟩
        · exact hst y (hperm.mem_iff.mp (List.mem_cons_of_mem _ h1))
        · have hcollt : col < cSize pssm := List.mem_range.mp hcol
          refine ⟨hkey, hseq, ?_, ?_⟩
          · rw [hset, List.length_set]
            exact htoplen
          · intro c hc
            rw [hset]
            by_cases hcc : col = c
            · rw [← hcc, getD_set_self _ _ _ _ (by rw [htoplen]; exact hcollt)]
              exact hlt
            · rw [getD_set_ne _ _ _ _ _ hcc]
              exact htopbound c hc
      obtain ⟨ihrun, ihstate⟩ := ih st' hst'inv
      constructor
      · intro t ht
        rcases List.mem_cons.mp ht with h1 | h1
        · rw [h1]; exact hst top htop
        · exact ihrun t h1
      · exact ihstate

/-- The initial queue consists of one `GoodState`. -/
theorem initState_good (pssm : List (List ℚ)) (aminoacids : List Char) (descending : Bool)
    (hR : 0 < rSize pssm) :
    ∀ y ∈ (initState pssm aminoacids descending).pq,
      GoodState pssm aminoacids descending y := by
  intro y hy
  simp only [initState, List.mem_cons] at hy
  rcases hy with h1 | h1
  · rw [h1]
    refine ⟨rfl, rfl, ?_, ?_⟩
    · exact List.length_replicate _ _
    · intro c _
      rw [initIndices, getD_replicate_zero]
      exact hR
  · simp at h1

/-- Every entry of a `greedy_sort` column is a valid row index. -/
theorem greedySortCol_mem_lt (pssm : List (List ℚ)) (descending : Bool) (c : ℕ) :
    ∀ x ∈ greedySortCol pssm descending c, x < rSize pssm := by
  intro x hx
  have hperm : (argsortCol (column pssm c)).Perm (List.range (column pssm c).length) :=
    List.perm_insertionSort _ _
  have hlen : (column pssm c).length = rSize pssm := by
    simp [column, rSize]
  have hx' : x ∈ argsortCol (column pssm c) := by
    unfold greedySortCol at hx
    by_cases hd : descending
    · rw [if_pos hd] at hx
      exact List.mem_reverse.mp hx
    · rw [if_neg hd] at hx
      exact hx
  have := hperm.mem_iff.mp hx'
  rw [hlen] at this
  exact List.mem_range.mp this

/-- Length of a `greedy_sort` column. -/
theorem greedySortCol_length (pssm : List (List ℚ)) (descending : Bool) (c : ℕ) :
    (greedySortCol pssm descending c).length = rSize pssm := by
  unfold greedySortCol argsortCol
  have hlen : (column pssm c).length = rSize pssm := by
    simp [column, rSize]
  by_cases hd : descending
  · rw [if_pos hd, List.length_reverse, List.length_insertionSort, List.length_range, hlen]
  · rw [if_neg hd, List.length_insertionSort, List.length_range, hlen]

/-- Each resolved row index is a valid row index (with at least one row,
even out-of-range ranks fall back to the default `0`). -/
theorem greedySortCol_getD_lt (pssm : List (List ℚ)) (descending : Bool) (c k : ℕ)
    (hR : 0 < rSize pssm) :
    (greedySortCol pssm descending c).getD k 0 < rSize pssm := by
  by_cases hk : k < (greedySortCol pssm descending c).length
  · rw [List.getD_eq_getElem _ _ hk]
    exact greedySortCol_mem_lt pssm descending c _ (List.getElem_mem hk)
  · rw [List.getD_eq_default _ _ (by omega)]
    exact hR

/-- C2 (amended): the internal score stored with every popped state, after
undoing the sign adjustment, is exactly the score of the rank-resolved
symbol sequence *without* the centre-column override: the code computes
the priority from `pssm[pssm_indices, cols]` before `new_seq[5]` is
forced to `"S"`.  (In exact arithmetic the round trip is an equality, so
it certainly holds within the spec's `1e-9` tolerance; the forced
candidate's score differs in general, see
`internal_score_differs_from_candidate_score`.) -/
theorem internal_score_eq_unforced_resolution_score (pssm : List (List ℚ))
    (aminoacids : List Char) (descending : Bool) (fuel : ℕ) (t : PQState)
    (hR : 0 < rSize pssm) (hlen : aminoacids.length = rSize pssm) (hnd : aminoacids.Nodup)
    (ht : t ∈ greedyTrace pssm aminoacids descending fuel) :
    get_sequence_score pssm aminoacids (rawResolveSeq pssm aminoacids descending t.2.2)
      = .ok (if descending then -t.1 else t.1) := by
  obtain ⟨hkey, _, _, _⟩ :=
    (run_good pssm aminoacids descending fuel (initState pssm aminoacids descending)
      (initState_good pssm aminoacids descending hR)).1 t ht
  set idx := t.2.2 with hidx
  set rows := resolveRows pssm descending idx with hrows
  have hrowslen : rows.length = cSize pssm := by
    rw [hrows]
    unfold resolveRows
    rw [List.length_map, List.length_range]
  have hrowlt : ∀ r ∈ rows, r < rSize pssm := by
    intro r hr
    rw [hrows] at hr
    unfold resolveRows at hr
    obtain ⟨c, _, hc2⟩ := List.mem_map.mp hr
    rw [← hc2]
    exact greedySortCol_getD_lt pssm descending c _ hR
  have hmemall : ∀ ch ∈ rawResolveSeq pssm aminoacids descending idx, ch ∈ aminoacids := by
    intro ch hch
    unfold rawResolveSeq at hch
    rw [← hrows] at hch
    obtain ⟨r, hr1, hr2⟩ := List.mem_map.mp hch
    have hrlt : r < aminoacids.length := by
      rw [hlen]
      exact hrowlt r hr1
    rw [← hr2, List.getD_eq_getElem _ _ hrlt]
    exact List.getElem_mem hrlt
  unfold get_sequence_score
  rw [lookupIndices_ok _ _ hmemall]
  dsimp only
  have hmapback : (rawResolveSeq pssm aminoacids descending idx).map
      (fun ch => aminoacids.indexOf ch) = rows := by
    unfold rawResolveSeq
    rw [← hrows, List.map_map]
    have : ∀ r ∈ rows, (fun ch => aminoacids.indexOf ch)
        ((fun i => aminoacids.getD i ' ') r) = r := by
      intro r hr
      have hrlt : r < aminoacids.length := by
        rw [hlen]; exact hrowlt r hr
      dsimp only
      rw [List.getD_eq_getElem _ _ hrlt]
      exact List.indexOf_getElem hnd r hrlt
    calc rows.map ((fun ch => aminoacids.indexOf ch) ∘ (fun i => aminoacids.getD i ' '))
        = rows.map id := List.map_congr_left this
      _ = rows := List.map_id rows
  rw [hmapback, if_pos hrowslen]
  have hvals : ((List.range (cSize pssm)).map (fun c => colVal pssm (rows.getD c 0) c))
      = stateVals pssm descending idx := by
    unfold stateVals
    apply List.map_congr_left
    intro c hc
    have hclt : c < cSize pssm := List.mem_range.mp hc
    rw [hrows]
    unfold resolveRows
    rw [getD_map_range _ _ _ _ hclt]
  rw [hvals]
  rw [hkey]
  unfold stateKey
  by_cases hd : descending
  · rw [if_pos hd, if_pos hd, neg_neg]
    rfl
  · rw [if_neg hd, if_neg hd]
    rfl

/-- Witness for `internal_score_eq_unforced_resolution_score`, at the
first pop of the descending search on `pssmAS`. -/
theorem internal_score_eq_unforced_resolution_score_witness :
    get_sequence_score pssmAS aminoAS
        (rawResolveSeq pssmAS aminoAS true
          (((-1048576 : ℚ), "AAAAASAAAA".toList, List.replicate 10 0) : PQState).2.2)
      = .ok (if true then -(((-1048576 : ℚ), "AAAAASAAAA".toList,
          List.replicate 10 0) : PQState).1 else (((-1048576 : ℚ), "AAAAASAAAA".toList,
          List.replicate 10 0) : PQState).1) :=
  internal_score_eq_unforced_resolution_score pssmAS aminoAS true 1
    ((-1048576 : ℚ), "AAAAASAAAA".toList, List.replicate 10 0)
    (by decide) (by decide) (by decide) (by decide)

/-- Witness for `center_rank_always_zero`, at the first pop of the
descending search on `pssmSKA`. -/
theorem center_rank_always_zero_witness :
    (((-1073741824 : ℚ), "SSSSSSKSSS".toList, List.replicate 10 0) : PQState).2.2.getD 5 0 = 0 ∧
    (5 < cSize pssmSKA →
      (stateVals pssmSKA true
          (((-1073741824 : ℚ), "SSSSSSKSSS".toList, List.replicate 10 0) : PQState).2.2).getD 5 0
        = colVal pssmSKA ((greedySortCol pssmSKA true 5).getD 0 0) 5) :=
  center_rank_always_zero pssmSKA aminoSKA true 1
    ((-1073741824 : ℚ), "SSSSSSKSSS".toList, List.replicate 10 0)
    (Or.inl (by decide))

/-! ## C4 — monotonicity of yielded scores -/

/-- The argsort of a column is sorted by ascending entry value. -/
theorem argsortCol_sorted (vals : List ℚ) :
    List.Sorted (fun i j => vals.getD i 0 ≤ vals.getD j 0) (argsortCol vals) := by
  letI : IsTotal ℕ (fun i j => vals.getD i 0 ≤ vals.getD j 0) := ⟨fun a b => le_total _ _⟩
  letI : IsTrans ℕ (fun i j => vals.getD i 0 ≤ vals.getD j 0) :=
    ⟨fun a b c hab hbc => le_trans hab hbc⟩
  exact List.sorted_insertionSort _ _

/-- Reading a column through its own index list. -/
theorem column_getD (pssm : List (List ℚ)) (c i : ℕ) :
    (column pssm c).getD i 0 = colVal pssm i c := by
  by_cases hi : i < pssm.length
  · unfold column colVal
    rw [List.getD_eq_getElem _ _ (by simpa using hi), List.getElem_map,
        List.getD_eq_getElem _ _ hi]
  · unfold column colVal
    rw [List.getD_eq_default _ _ (by simp only [List.length_map]; omega)]
    rw [List.getD_eq_default pssm _ (by omega)]
    simp

/-- Entry values along an argsorted column are monotone in the rank. -/
theorem argsortCol_getD_mono (vals : List ℚ) (i j : ℕ) (hij : i ≤ j)
    (hj : j < (argsortCol vals).length) :
    vals.getD ((argsortCol vals).getD i 0) 0 ≤ vals.getD ((argsortCol vals).getD j 0) 0 := by
  rcases eq_or_lt_of_le hij with heq | hlt
  · rw [heq]
  · have hi : i < (argsortCol vals).length := lt_trans hlt hj
    rw [List.getD_eq_getElem _ _ hi, List.getD_eq_getElem _ _ hj]
    exact (argsortCol_sorted vals).rel_get_of_lt (a := ⟨i, hi⟩) (b := ⟨j, hj⟩) hlt

/-- Positivity of an in-range entry of a strictly positive rectangular
matrix. -/
theorem colVal_pos (pssm : List (List ℚ)) (r c : ℕ)
    (hrect : ∀ row ∈ pssm, row.length = cSize pssm)
    (hpos : ∀ row ∈ pssm, ∀ x ∈ row, 0 < x)
    (hr : r < rSize pssm) (hc : c < cSize pssm) : 0 < colVal pssm r c := by
  unfold colVal
  have hrl : r < pssm.length := hr
  rw [List.getD_eq_getElem _ _ hrl]
  have hmemrow : pssm[r] ∈ pssm := List.getElem_mem hrl
  have hcl : c < pssm[r].length := by
    rw [hrect _ hmemrow]
    exact hc
  rw [List.getD_eq_getElem _ _ hcl]
  exact hpos _ hmemrow _ (List.getElem_mem hcl)

/-- One rank step along a `greedy_sort` column moves the value the right
way: downwards in the descending direction, upwards otherwise. -/
theorem greedySort_val_step (pssm : List (List ℚ)) (descending : Bool) (c r : ℕ)
    (hr : r + 1 < rSize pssm) :
    (descending = true →
      colVal pssm ((greedySortCol pssm descending c).getD (r + 1) 0) c
        ≤ colVal pssm ((greedySortCol pssm descending c).getD r 0) c) ∧
    (descending = false →
      colVal pssm ((greedySortCol pssm descending c).getD r 0) c
        ≤ colVal pssm ((greedySortCol pssm descending c).getD (r + 1) 0) c) := by
  have hlen : (argsortCol (column pssm c)).length = rSize pssm := by
    have := greedySortCol_length pssm false c
    simpa [greedySortCol] using this
  have hrev : ∀ i : ℕ, i < (argsortCol (column pssm c)).length →
      (argsortCol (column pssm c)).reverse.getD i 0
        = (argsortCol (column pssm c)).getD ((argsortCol (column pssm c)).length - 1 - i) 0 := by
    intro i hi
    rw [List.getD_eq_getElem _ _ (by simpa using hi),
        List.getD_eq_getElem _ _ (by omega), List.getElem_reverse]
  constructor
  · intro hd
    unfold greedySortCol
    rw [hd]
    simp only [if_true]
    rw [hrev (r + 1) (by rw [hlen]; exact hr), hrev r (by rw [hlen]; omega)]
    simp only [← column_getD pssm c]
    apply argsortCol_getD_mono (column pssm c)
    · omega
    · rw [hlen]
      omega
  · intro hd
    unfold greedySortCol
    rw [hd]
    simp only [Bool.false_eq_true, if_false]
    simp only [← column_getD pssm c]
    exact argsortCol_getD_mono (column pssm c) r (r + 1) (by omega) (by rw [hlen]; exact hr)

/-- Positivity of a product over `List.range`. -/
theorem prod_map_range_pos (n : ℕ) (f : ℕ → ℚ) (hpos : ∀ c < n, 0 < f c) :
    0 < ((List.range n).map f).prod := by
  apply List.prod_pos
  intro a ha
  obtain ⟨c, hc, rfl⟩ := List.mem_map.mp ha
  exact hpos c (List.mem_range.mp hc)

/-- Comparing two products over `List.range` that agree except at one
position, where one factor dominates the other. -/
theorem prod_map_range_le (n : ℕ) (col : ℕ) (f g : ℕ → ℚ)
    (hposf : ∀ c < n, 0 < f c) (hposg : ∀ c < n, 0 < g c)
    (heq : ∀ c < n, c ≠ col → g c = f c) (hle : g col ≤ f col) :
    ((List.range n).map g).prod ≤ ((List.range n).map f).prod := by
  induction n with
  | zero => simp
  | succ n ih =>
    rw [List.range_succ, List.map_append, List.map_append, List.prod_append, List.prod_append]
    simp only [List.map_cons, List.map_nil, List.prod_cons, List.prod_nil, mul_one]
    have hposf' : ∀ c < n, 0 < f c := fun c hc => hposf c (by omega)
    have hposg' : ∀ c < n, 0 < g c := fun c hc => hposg c (by omega)
    have heq' : ∀ c < n, c ≠ col → g c = f c := fun c hc => heq c (by omega)
    have hgn : g n ≤ f n := by
      by_cases hn : n = col
      · rw [hn]; exact hle
      · rw [heq n (by omega) hn]
    exact mul_le_mul (ih hposf' hposg' heq') hgn
      (le_of_lt (hposg n (by omega)))
      (le_of_lt (prod_map_range_pos n f hposf'))

/-- Swapping a single designated factor between two products over
`List.range` that agree everywhere else. -/
theorem prod_map_range_mul_single (n : ℕ) (col : ℕ) (f g : ℕ → ℚ) (hcol : col < n)
    (heq : ∀ c < n, c ≠ col → g c = f c) :
    ((List.range n).map g).prod * f col = ((List.range n).map f).prod * g col := by
  induction n with
  | zero => omega
  | succ n ih =>
    rw [List.range_succ, List.map_append, List.map_append, List.prod_append, List.prod_append]
    simp only [List.map_cons, List.map_nil, List.prod_cons, List.prod_nil, mul_one]
    have heq' : ∀ c < n, c ≠ col → g c = f c := fun c hc => heq c (by omega)
    by_cases hn : n = col
    · have hsame : ((List.range n).map g).prod = ((List.range n).map f).prod := by
        apply congrArg List.prod
        apply List.map_congr_left
        intro c hc
        exact heq c (by have := List.mem_range.mp hc; omega) (by have := List.mem_range.mp hc; omega)
      rw [hsame, hn]
      ring
    · have hcol' : col < n := by omega
      have hgn : g n = f n := heq n (by omega) hn
      rw [hgn]
      have := ih hcol' heq'
      calc ((List.range n).map g).prod * f n * f col
          = ((List.range n).map g).prod * f col * f n := by ring
        _ = ((List.range n).map f).prod * g col * f n := by rw [this]
        _ = ((List.range n).map f).prod * f n * g col := by ring

/-- A neighbour expansion can only worsen the internal priority: the key
of the incremented state is at least the key of its parent. -/
theorem stateKey_le_expand (pssm : List (List ℚ)) (descending : Bool)
    (hrect : ∀ row ∈ pssm, row.length = cSize pssm)
    (hpos : ∀ row ∈ pssm, ∀ x ∈ row, 0 < x) (hR : 0 < rSize pssm)
    (idx : List ℕ) (hlen : idx.length = cSize pssm)
    (col : ℕ) (hcol : col < cSize pssm) (hlt : idx.getD col 0 + 1 < rSize pssm) :
    stateKey pssm descending idx
      ≤ stateKey pssm descending (idx.set col (idx.getD col 0 + 1)) := by
  set f : ℕ → ℚ := fun c =>
    colVal pssm ((greedySortCol pssm descending c).getD (idx.getD c 0) 0) c with hf
  set g : ℕ → ℚ := fun c =>
    colVal pssm ((greedySortCol pssm descending c).getD
      ((idx.set col (idx.getD col 0 + 1)).getD c 0) 0) c with hg
  have hprodf : stateProd pssm descending idx = ((List.range (cSize pssm)).map f).prod := rfl
  have hprodg : stateProd pssm descending (idx.set col (idx.getD col 0 + 1))
      = ((List.range (cSize pssm)).map g).prod := rfl
  have hposf : ∀ c < cSize pssm, 0 < f c := by
    intro c hc
    exact colVal_pos pssm _ c hrect hpos (greedySortCol_getD_lt pssm descending c _ hR) hc
  have hposg : ∀ c < cSize pssm, 0 < g c := by
    intro c hc
    exact colVal_pos pssm _ c hrect hpos (greedySortCol_getD_lt pssm descending c _ hR) hc
  have heqoff : ∀ c < cSize pssm, c ≠ col → g c = f c := by
    intro c _ hcc
    rw [hg, hf]
    dsimp only
    rw [getD_set_ne _ _ _ _ _ (fun h => hcc h.symm)]
  have hsetcol : (idx.set col (idx.getD col 0 + 1)).getD col 0 = idx.getD col 0 + 1 :=
    getD_set_self _ _ _ _ (by rw [hlen]; exact hcol)
  obtain ⟨hdesc, hasc⟩ := greedySort_val_step pssm descending col (idx.getD col 0) hlt
  have hmain : (descending = true →
      stateProd pssm descending (idx.set col (idx.getD col 0 + 1))
        ≤ stateProd pssm descending idx) ∧
      (descending = false →
      stateProd pssm descending idx
        ≤ stateProd pssm descending (idx.set col (idx.getD col 0 + 1))) := by
    constructor
    · intro hd
      rw [hprodg, hprodf]
      apply prod_map_range_le (cSize pssm) col f g hposf hposg heqoff
      rw [hg, hf]
      dsimp only
      rw [hsetcol]
      exact hdesc hd
    · intro hd
      rw [hprodf, hprodg]
      apply prod_map_range_le (cSize pssm) col g f hposg hposf
        (fun c hc hcc => (heqoff c hc hcc).symm)
      rw [hg, hf]
      dsimp only
      rw [hsetcol]
      exact hasc hd
  unfold stateKey
  by_cases hd : descending
  · rw [if_pos hd, if_pos hd, neg_le_neg_iff]
    exact hmain.1 hd
  · have hd' : descending = false := by
      cases hB : descending
      · rfl
      · rw [hB] at hd; exact absurd rfl hd
    rw [if_neg hd, if_neg hd]
    exact hmain.2 hd'

/-- Popped priorities never decrease along a run: the best-first loop
pops keys in non-decreasing order (Dijkstra-style argument using that a
pushed neighbour's key is at least its parent's). -/
theorem run_keys_chain (pssm : List (List ℚ)) (aminoacids : List Char) (descending : Bool)
    (hrect : ∀ row ∈ pssm, row.length = cSize pssm)
    (hpos : ∀ row ∈ pssm, ∀ x ∈ row, 0 < x) (hR : 0 < rSize pssm) :
    ∀ (n : ℕ) (st : SearchState) (k0 : ℚ),
      (∀ y ∈ st.pq, GoodState pssm aminoacids descending y) →
      (∀ y ∈ st.pq, k0 ≤ y.1) →
      (∀ t ∈ greedyRun pssm aminoacids descending n st, k0 ≤ t.1) ∧
        List.Chain' (fun a b : PQState => a.1 ≤ b.1)
          (greedyRun pssm aminoacids descending n st) := by
  intro n
  induction n with
  | zero =>
    intro st k0 _ _
    constructor
    · intro t ht; simp [greedyRun] at ht
    · simp [greedyRun]
  | succ n ih =>
    intro st k0 hgood hk0
    unfold greedyRun
    cases h : greedyStep pssm aminoacids descending st with
    | none =>
      constructor
      · intro t ht; simp at ht
      · simp
    | some p =>
      obtain ⟨top, st'⟩ := p
      obtain ⟨rest, hpop, hst'⟩ := greedyStep_inv h
      have hperm := popMin_perm hpop
      have htop : top ∈ st.pq := hperm.mem_iff.mp (List.mem_cons_self _ _)
      obtain ⟨htopkey, _, htoplen, htopbound⟩ := hgood top htop
      have hgood' : ∀ y ∈ st'.pq, GoodState pssm aminoacids descending y := by
        intro y hy
        obtain ⟨_, hsplit⟩ := expand_fold_spec pssm aminoacids descending top.2.2
          (List.range (cSize pssm)) { pq := rest, visited := st.visited }
        rw [← hst'] at hsplit
        rcases hsplit y hy with h1 | ⟨⟨col, hcolm, _, hlt, hset, hkey, hseq⟩, _, _⟩
        · exact hgood y (hperm.mem_iff.mp (List.mem_cons_of_mem _ h1))
        · have hcollt : col < cSize pssm := List.mem_range.mp hcolm
          refine ⟨hkey, hseq, ?_, ?_⟩
          · rw [hset, List.length_set]; exact htoplen
          · intro c hc
            rw [hset]
            by_cases hcc : col = c
            · rw [← hcc, getD_set_self _ _ _ _ (by rw [htoplen]; exact hcollt)]
              exact hlt
            · rw [getD_set_ne _ _ _ _ _ hcc]
              exact htopbound c hc
      have hbound' : ∀ y ∈ st'.pq, top.1 ≤ y.1 := by
        intro y hy
        obtain ⟨_, hsplit⟩ := expand_fold_spec pssm aminoacids descending top.2.2
          (List.range (cSize pssm)) { pq := rest, visited := st.visited }
        rw [← hst'] at hsplit
        rcases hsplit y hy with h1 | ⟨⟨col, hcolm, _, hlt, hset, hkey, _⟩, _, _⟩
        · exact popMin_fst_le hpop y (hperm.mem_iff.mp (List.mem_cons_of_mem _ h1))
        · rw [hkey, hset, htopkey]
          exact stateKey_le_expand pssm descending hrect hpos hR top.2.2 htoplen col
            (List.mem_range.mp hcolm) hlt
      obtain ⟨ihbound, ihchain⟩ := ih st' top.1 hgood' hbound'
      constructor
      · intro t ht
        rcases List.mem_cons.mp ht with h1 | h1
        · rw [h1]; exact hk0 top htop
        · exact le_trans (hk0 top htop) (ihbound t h1)
      · refine List.Chain'.cons' ihchain ?_
        intro y hy
        exact ihbound y (List.mem_of_mem_head? hy)

/-- Looking the resolved symbols back up in a duplicate-free alphabet
recovers the resolved row indices. -/
theorem rawResolve_map_indexOf (pssm : List (List ℚ)) (aminoacids : List Char)
    (descending : Bool) (idx : List ℕ) (hR : 0 < rSize pssm)
    (hlen : aminoacids.length = rSize pssm) (hnd : aminoacids.Nodup) :
    (rawResolveSeq pssm aminoacids descending idx).map (fun ch => aminoacids.indexOf ch)
      = resolveRows pssm descending idx := by
  have hrowlt : ∀ r ∈ resolveRows pssm descending idx, r < rSize pssm := by
    intro r hr
    unfold resolveRows at hr
    obtain ⟨c, _, hc2⟩ := List.mem_map.mp hr
    rw [← hc2]
    exact greedySortCol_getD_lt pssm descending c _ hR
  unfold rawResolveSeq
  rw [List.map_map]
  have hpt : ∀ r ∈ resolveRows pssm descending idx,
      ((fun ch => aminoacids.indexOf ch) ∘ (fun i => aminoacids.getD i ' ')) r = r := by
    intro r hr
    have hrlt : r < aminoacids.length := by
      rw [hlen]; exact hrowlt r hr
    dsimp only [Function.comp]
    rw [List.getD_eq_getElem _ _ hrlt]
    exact List.indexOf_getElem hnd r hrlt
  calc (resolveRows pssm descending idx).map
        ((fun ch => aminoacids.indexOf ch) ∘ (fun i => aminoacids.getD i ' '))
      = (resolveRows pssm descending idx).map id := List.map_congr_left hpt
    _ = resolveRows pssm descending idx := List.map_id _

/-- Scoring the candidate of a centre-rank-zero state: the score exists,
is positive, and differs from the internal product exactly by trading the
column-5 best entry for the column-5 `'S'` entry. -/
theorem stateSeq_score (pssm : List (List ℚ)) (aminoacids : List Char) (descending : Bool)
    (idx : List ℕ)
    (hrect : ∀ row ∈ pssm, row.length = cSize pssm)
    (hpos : ∀ row ∈ pssm, ∀ x ∈ row, 0 < x) (hR : 0 < rSize pssm)
    (hlen : aminoacids.length = rSize pssm) (hnd : aminoacids.Nodup)
    (hS : 'S' ∈ aminoacids) (h5C : 5 < cSize pssm)
    (hidx5 : idx.getD 5 0 = 0) :
    ∃ q : ℚ, get_sequence_score pssm aminoacids (stateSeq pssm aminoacids descending idx)
        = .ok q ∧ 0 < q ∧
      q * colVal pssm ((greedySortCol pssm descending 5).getD 0 0) 5
        = stateProd pssm descending idx * colVal pssm (aminoacids.indexOf 'S') 5 := by
  set rows := resolveRows pssm descending idx with hrows
  have hrowslen : rows.length = cSize pssm := by
    rw [hrows]; unfold resolveRows; rw [List.length_map, List.length_range]
  have hrowlt : ∀ r ∈ rows, r < rSize pssm := by
    intro r hr
    rw [hrows] at hr
    unfold resolveRows at hr
    obtain ⟨c, _, hc2⟩ := List.mem_map.mp hr
    rw [← hc2]
    exact greedySortCol_getD_lt pssm descending c _ hR
  have hsIdx : aminoacids.indexOf 'S' < rSize pssm := by
    rw [← hlen]
    exact List.indexOf_lt_length.mpr hS
  have hseqset : stateSeq pssm aminoacids descending idx
      = (rawResolveSeq pssm aminoacids descending idx).set 5 'S' := rfl
  have hmemall : ∀ ch ∈ stateSeq pssm aminoacids descending idx, ch ∈ aminoacids := by
    intro ch hch
    rw [hseqset] at hch
    rcases List.mem_or_eq_of_mem_set hch with h1 | h1
    · unfold rawResolveSeq at h1
      rw [← hrows] at h1
      obtain ⟨r, hr1, hr2⟩ := List.mem_map.mp h1
      have hrlt : r < aminoacids.length := by
        rw [hlen]; exact hrowlt r hr1
      rw [← hr2, List.getD_eq_getElem _ _ hrlt]
      exact List.getElem_mem hrlt
    · rw [h1]; exact hS
  unfold get_sequence_score
  rw [lookupIndices_ok _ _ hmemall]
  dsimp only
  rw [hseqset, List.map_set, rawResolve_map_indexOf pssm aminoacids descending idx hR hlen hnd,
    ← hrows]
  rw [if_pos (by rw [List.length_set]; exact hrowslen)]
  set f : ℕ → ℚ := fun c =>
    colVal pssm ((greedySortCol pssm descending c).getD (idx.getD c 0) 0) c with hf
  set g : ℕ → ℚ := fun c =>
    colVal pssm ((rows.set 5 (aminoacids.indexOf 'S')).getD c 0) c with hg
  have heqoff : ∀ c < cSize pssm, c ≠ 5 → g c = f c := by
    intro c hc hc5
    rw [hg, hf]
    dsimp only
    rw [getD_set_ne _ _ _ _ _ (fun h => hc5 h.symm), hrows]
    unfold resolveRows
    rw [getD_map_range _ _ _ _ hc]
  have hg5 : g 5 = colVal pssm (aminoacids.indexOf 'S') 5 := by
    rw [hg]
    dsimp only
    rw [getD_set_self _ _ _ _ (by rw [hrowslen]; exact h5C)]
  have hf5 : f 5 = colVal pssm ((greedySortCol pssm descending 5).getD 0 0) 5 := by
    rw [hf]
    dsimp only
    rw [hidx5]
  have hposf : ∀ c < cSize pssm, 0 < f c := by
    intro c hc
    exact colVal_pos pssm _ c hrect hpos (greedySortCol_getD_lt pssm descending c _ hR) hc
  have hposg : ∀ c < cSize pssm, 0 < g c := by
    intro c hc
    by_cases hc5 : c = 5
    · rw [hc5, hg5]
      exact colVal_pos pssm _ 5 hrect hpos hsIdx h5C
    · rw [heqoff c hc hc5]
      exact hposf c hc
  refine ⟨((List.range (cSize pssm)).map g).prod, rfl, prod_map_range_pos _ g hposg, ?_⟩
  have hswap := prod_map_range_mul_single (cSize pssm) 5 f g h5C heqoff
  rw [hf5, hg5] at hswap
  have hprodf : stateProd pssm descending idx = ((List.range (cSize pssm)).map f).prod := rfl
  rw [hprodf]
  exact hswap

/-- Transfer a chain along a pointwise implication that may use a
membership-derived fact about the elements. -/
theorem chain'_imp_mem {α : Type} {S T : α → α → Prop} {P : α → Prop} :
    ∀ {l : List α}, List.Chain' S l → (∀ x ∈ l, P x) →
      (∀ x y, P x → P y → S x y → T x y) → List.Chain' T l := by
  intro l
  induction l with
  | nil => intro _ _ _; exact List.chain'_nil
  | cons x l ih =>
    intro hc hmem himp
    cases l with
    | nil => exact List.chain'_singleton x
    | cons y l =>
      rw [List.chain'_cons] at hc ⊢
      refine ⟨himp x y (hmem x (by simp)) (hmem y (by simp)) hc.1, ?_⟩
      exact ih hc.2 (fun z hz => hmem z (List.mem_cons_of_mem x hz)) himp

/-- A guard-plus-transform `filterMap` is a `filter` followed by a
`map`. -/
theorem filterMap_ite_eq_filter_map {α β : Type} (p : α → Bool) (h : α → β) (l : List α) :
    l.filterMap (fun x => if p x then some (h x) else none) = (l.filter p).map h := by
  induction l with
  | nil => rfl
  | cons a l ih =>
    rw [List.filterMap_cons, List.filter_cons]
    by_cases hp : p a = true
    · simp only [hp, if_true]
      rw [List.map_cons, ih]
    · simp only [hp, Bool.false_eq_true, if_false]
      exact ih

/-- C4: for a fixed strictly positive rectangular 10-column matrix with a
matching duplicate-free alphabet containing `'S'`, the scores (as
recomputed by `get_sequence_score`) of consecutive candidates yielded by
`greedy_pssm_generator` are monotonically non-improving in the search
direction: non-increasing when `descending` and non-decreasing otherwise
(both for the raw products and for their `log2` values). -/
theorem yielded_scores_monotone (pssm : List (List ℚ)) (aminoacids : List Char)
    (descending : Bool) (fuel : ℕ)
    (hR : 0 < rSize pssm) (hC : cSize pssm = 10)
    (hrect : ∀ row ∈ pssm, row.length = cSize pssm)
    (hpos : ∀ row ∈ pssm, ∀ x ∈ row, 0 < x)
    (hlen : aminoacids.length = rSize pssm) (hnd : aminoacids.Nodup)
    (hS : 'S' ∈ aminoacids) :
    (∀ s ∈ greedy_pssm_generator pssm aminoacids descending fuel,
      get_sequence_score pssm aminoacids s.toList
        = .ok (yieldScoreProd pssm aminoacids s) ∧ 0 < yieldScoreProd pssm aminoacids s) ∧
    List.Chain' (fun s1 s2 =>
      if descending then yieldScoreProd pssm aminoacids s2 ≤ yieldScoreProd pssm aminoacids s1
      else yieldScoreProd pssm aminoacids s1 ≤ yieldScoreProd pssm aminoacids s2)
      (greedy_pssm_generator pssm aminoacids descending fuel) ∧
    List.Chain' (fun s1 s2 =>
      if descending
      then Real.logb 2 ((yieldScoreProd pssm aminoacids s2 : ℚ) : ℝ)
             ≤ Real.logb 2 ((yieldScoreProd pssm aminoacids s1 : ℚ) : ℝ)
      else Real.logb 2 ((yieldScoreProd pssm aminoacids s1 : ℚ) : ℝ)
             ≤ Real.logb 2 ((yieldScoreProd pssm aminoacids s2 : ℚ) : ℝ))
      (greedy_pssm_generator pssm aminoacids descending fuel) := by
  have h5C : 5 < cSize pssm := by omega
  set best5 : ℚ := colVal pssm ((greedySortCol pssm descending 5).getD 0 0) 5 with hbest5
  set sval : ℚ := colVal pssm (aminoacids.indexOf 'S') 5 with hsval
  have hbest5pos : 0 < best5 := by
    rw [hbest5]
    exact colVal_pos pssm _ 5 hrect hpos (greedySortCol_getD_lt pssm descending 5 _ hR) h5C
  have hsvalpos : 0 < sval := by
    rw [hsval]
    refine colVal_pos pssm _ 5 hrect hpos ?_ h5C
    rw [← hlen]
    exact List.indexOf_lt_length.mpr hS
  -- facts about every popped state
  have hGoodAll := (run_good pssm aminoacids descending fuel
    (initState pssm aminoacids descending)
    (initState_good pssm aminoacids descending hR)).1
  have hC5All : ∀ t ∈ greedyTrace pssm aminoacids descending fuel, t.2.2.getD 5 0 = 0 := by
    intro t ht
    exact (center_rank_always_zero pssm aminoacids descending fuel t (Or.inl ht)).1
  have hkeych := run_keys_chain pssm aminoacids descending hrect hpos hR fuel
    (initState pssm aminoacids descending)
    (stateKey pssm descending (initIndices pssm))
    (initState_good pssm aminoacids descending hR)
    (by
      intro y hy
      simp only [initState, List.mem_cons] at hy
      rcases hy with h1 | h1
      · rw [h1]
      · simp at h1)
  -- the per-element score package
  have hPAll : ∀ t ∈ greedyTrace pssm aminoacids descending fuel,
      get_sequence_score pssm aminoacids (String.mk t.2.1).toList
          = .ok (yieldScoreProd pssm aminoacids (String.mk t.2.1)) ∧
        0 < yieldScoreProd pssm aminoacids (String.mk t.2.1) ∧
        yieldScoreProd pssm aminoacids (String.mk t.2.1) * best5
          = (if descending then -t.1 else t.1) * sval := by
    intro t ht
    obtain ⟨hkey, hseq, hlent, _⟩ := hGoodAll t ht
    obtain ⟨q, hq1, hq2, hq3⟩ := stateSeq_score pssm aminoacids descending t.2.2
      hrect hpos hR hlen hnd hS h5C (hC5All t ht)
    have htol : (String.mk t.2.1).toList = stateSeq pssm aminoacids descending t.2.2 := by
      rw [hseq]
      rfl
    have hysp : yieldScoreProd pssm aminoacids (String.mk t.2.1) = q := by
      unfold yieldScoreProd
      rw [htol, hq1]
      rfl
    have hunneg : stateProd pssm descending t.2.2 = (if descending then -t.1 else t.1) := by
      rw [hkey]
      unfold stateKey
      by_cases hd : descending
      · rw [if_pos hd, if_pos hd, neg_neg]
      · rw [if_neg hd, if_neg hd]
    refine ⟨?_, ?_, ?_⟩
    · rw [htol, hq1, hysp]
    · rw [hysp]; exact hq2
    · rw [hysp, ← hunneg]
      exact hq3
  -- chain on the popped trace, phrased on the yielded strings
  have hchainT : List.Chain' (fun t u : PQState =>
      0 < yieldScoreProd pssm aminoacids (String.mk t.2.1) ∧
      0 < yieldScoreProd pssm aminoacids (String.mk u.2.1) ∧
      (if descending
       then yieldScoreProd pssm aminoacids (String.mk u.2.1)
              ≤ yieldScoreProd pssm aminoacids (String.mk t.2.1)
       else yieldScoreProd pssm aminoacids (String.mk t.2.1)
              ≤ yieldScoreProd pssm aminoacids (String.mk u.2.1)))
      (greedyTrace pssm aminoacids descending fuel) := by
    refine chain'_imp_mem hkeych.2 hPAll ?_
    intro t u hPt hPu hkeyle
    obtain ⟨_, htpos, htmul⟩ := hPt
    obtain ⟨_, hupos, humul⟩ := hPu
    refine ⟨htpos, hupos, ?_⟩
    by_cases hd : descending
    · rw [if_pos hd]
      rw [if_pos hd] at htmul humul
      have h1 : (-u.1) * sval ≤ (-t.1) * sval :=
        mul_le_mul_of_nonneg_right (by linarith) (le_of_lt hsvalpos)
      rw [← humul, ← htmul] at h1
      exact le_of_mul_le_mul_right h1 hbest5pos
    · rw [if_neg hd]
      rw [if_neg hd] at htmul humul
      have h1 : t.1 * sval ≤ u.1 * sval :=
        mul_le_mul_of_nonneg_right hkeyle (le_of_lt hsvalpos)
      rw [← humul, ← htmul] at h1
      exact le_of_mul_le_mul_right h1 hbest5pos
  -- outputs as filter-then-map of the trace
  have houtputs : greedy_pssm_generator pssm aminoacids descending fuel
      = ((greedyTrace pssm aminoacids descending fuel).filter
          (fun t : PQState => is_valid_sequence t.2.1)).map
          (fun t : PQState => String.mk t.2.1) := by
    unfold greedy_pssm_generator
    exact filterMap_ite_eq_filter_map (fun t : PQState => is_valid_sequence t.2.1)
      (fun t : PQState => String.mk t.2.1) _
  letI instT : IsTrans PQState (fun t u : PQState =>
      0 < yieldScoreProd pssm aminoacids (String.mk t.2.1) ∧
      0 < yieldScoreProd pssm aminoacids (String.mk u.2.1) ∧
      (if descending
       then yieldScoreProd pssm aminoacids (String.mk u.2.1)
              ≤ yieldScoreProd pssm aminoacids (String.mk t.2.1)
       else yieldScoreProd pssm aminoacids (String.mk t.2.1)
              ≤ yieldScoreProd pssm aminoacids (String.mk u.2.1))) := by
    constructor
    intro a b c hab hbc
    refine ⟨hab.1, hbc.2.1, ?_⟩
    by_cases hd : descending
    · rw [if_pos hd]
      rw [if_pos hd] at hab hbc
      exact le_trans hbc.2.2 hab.2.2
    · rw [if_neg hd]
      rw [if_neg hd] at hab hbc
      exact le_trans hab.2.2 hbc.2.2
  have hchainF := List.Chain'.sublist hchainT
    (List.filter_sublist (p := fun t : PQState => is_valid_sequence t.2.1)
      (greedyTrace pssm aminoacids descending fuel))
  have hchainOut : List.Chain' (fun s1 s2 : String =>
      0 < yieldScoreProd pssm aminoacids s1 ∧ 0 < yieldScoreProd pssm aminoacids s2 ∧
      (if descending
       then yieldScoreProd pssm aminoacids s2 ≤ yieldScoreProd pssm aminoacids s1
       else yieldScoreProd pssm aminoacids s1 ≤ yieldScoreProd pssm aminoacids s2))
      (greedy_pssm_generator pssm aminoacids descending fuel) := by
    rw [houtputs]
    exact (List.chain'_map _).mpr hchainF
  have hmemfacts : ∀ s ∈ greedy_pssm_generator pssm aminoacids descending fuel,
      get_sequence_score pssm aminoacids s.toList
        = .ok (yieldScoreProd pssm aminoacids s) ∧ 0 < yieldScoreProd pssm aminoacids s := by
    intro s hs
    rw [houtputs] at hs
    obtain ⟨t, htf, hts⟩ := List.mem_map.mp hs
    have htmem : t ∈ greedyTrace pssm aminoacids descending fuel :=
      List.mem_of_mem_filter htf
    obtain ⟨h1, h2, _⟩ := hPAll t htmem
    rw [← hts]
    exact ⟨h1, h2⟩
  refine ⟨hmemfacts, ?_, ?_⟩
  · exact hchainOut.imp (fun a b h => h.2.2)
  · refine hchainOut.imp ?_
    intro a b h
    obtain ⟨ha, hb, hib⟩ := h
    by_cases hd : descending
    · rw [if_pos hd]
      rw [if_pos hd] at hib
      exact (Real.logb_le_logb (by norm_num) (by exact_mod_cast hb)
        (by exact_mod_cast ha)).mpr (by exact_mod_cast hib)
    · rw [if_neg hd]
      rw [if_neg hd] at hib
      exact (Real.logb_le_logb (by norm_num) (by exact_mod_cast ha)
        (by exact_mod_cast hb)).mpr (by exact_mod_cast hib)

/-- Witness for `yielded_scores_monotone`, on the concrete matrix
`pssmSKA` with three loop iterations of the descending search. -/
theorem yielded_scores_monotone_witness :
    (∀ s ∈ greedy_pssm_generator pssmSKA aminoSKA true 3,
      get_sequence_score pssmSKA aminoSKA s.toList
        = .ok (yieldScoreProd pssmSKA aminoSKA s) ∧ 0 < yieldScoreProd pssmSKA aminoSKA s) ∧
    List.Chain' (fun s1 s2 =>
      if true then yieldScoreProd pssmSKA aminoSKA s2 ≤ yieldScoreProd pssmSKA aminoSKA s1
      else yieldScoreProd pssmSKA aminoSKA s1 ≤ yieldScoreProd pssmSKA aminoSKA s2)
      (greedy_pssm_generator pssmSKA aminoSKA true 3) ∧
    List.Chain' (fun s1 s2 =>
      if true
      then Real.logb 2 ((yieldScoreProd pssmSKA aminoSKA s2 : ℚ) : ℝ)
             ≤ Real.logb 2 ((yieldScoreProd pssmSKA aminoSKA s1 : ℚ) : ℝ)
      else Real.logb 2 ((yieldScoreProd pssmSKA aminoSKA s1 : ℚ) : ℝ)
             ≤ Real.logb 2 ((yieldScoreProd pssmSKA aminoSKA s2 : ℚ) : ℝ))
      (greedy_pssm_generator pssmSKA aminoSKA true 3) :=
  yielded_scores_monotone pssmSKA aminoSKA true 3 (by decide) (by decide) (by decide)
    (by decide) (by decide) (by decide) (by decide)

/-! ## Fuel stability: a yield observed within some fuel budget is the
yield of the unbounded loop -/

/-- Once the queue is exhausted the trace stays empty. -/
theorem greedyRun_of_step_none (pssm : List (List ℚ)) (aminoacids : List Char)
    (descending : Bool) (st : SearchState)
    (h : greedyStep pssm aminoacids descending st = none) :
    ∀ n, greedyRun pssm aminoacids descending n st = [] := by
  intro n
  cases n with
  | zero => rfl
  | succ n =>
    unfold greedyRun
    rw [h]

/-- Unfolding equation for one more iteration of the trace. -/
theorem greedyRun_succ (pssm : List (List ℚ)) (aminoacids : List Char) (descending : Bool)
    (n : ℕ) (st : SearchState) :
    greedyRun pssm aminoacids descending (n + 1) st =
      match greedyStep pssm aminoacids descending st with
      | none => []
      | some (top, st') => top :: greedyRun pssm aminoacids descending n st' := rfl

/-- Unfolding equation for one more iteration of the reached state. -/
theorem runState_succ (pssm : List (List ℚ)) (aminoacids : List Char) (descending : Bool)
    (n : ℕ) (st : SearchState) :
    runState pssm aminoacids descending (n + 1) st =
      match greedyStep pssm aminoacids descending st with
      | none => st
      | some (_, st') => runState pssm aminoacids descending n st' := rfl

/-- Segmenting a run: the trace of `m + n` iterations is the trace of the
first `m` followed by the trace of `n` more from the reached state. -/
theorem greedyRun_add (pssm : List (List ℚ)) (aminoacids : List Char) (descending : Bool) :
    ∀ (m n : ℕ) (st : SearchState),
      greedyRun pssm aminoacids descending (m + n) st
        = greedyRun pssm aminoacids descending m st
            ++ greedyRun pssm aminoacids descending n
                (runState pssm aminoacids descending m st) := by
  intro m
  induction m with
  | zero =>
    intro n st
    simp [greedyRun, runState]
  | succ m ih =>
    intro n st
    have hmn : m + 1 + n = (m + n) + 1 := by omega
    rw [hmn, greedyRun_succ, greedyRun_succ, runState_succ]
    cases h : greedyStep pssm aminoacids descending st with
    | none =>
      dsimp only
      rw [List.nil_append]
      exact (greedyRun_of_step_none pssm aminoacids descending st h n).symm
    | some p =>
      obtain ⟨top, st'⟩ := p
      dsimp only
      rw [List.cons_append, ih n st']

/-- A value yielded within some fuel budget stays the first yield for
every larger budget: the fuelled embedding is prefix-stable, so it
faithfully determines `next()` of the unbounded Python generator. -/
theorem firstYield_stable (pssm : List (List ℚ)) (aminoacids : List Char)
    (descending : Bool) (fuel fuel' : ℕ) (s : String)
    (hle : fuel ≤ fuel')
    (h : firstYield pssm aminoacids descending fuel = some s) :
    firstYield pssm aminoacids descending fuel' = some s := by
  obtain ⟨k, rfl⟩ := Nat.exists_eq_add_of_le hle
  unfold firstYield greedy_pssm_generator at h ⊢
  unfold greedyTrace at h ⊢
  rw [greedyRun_add pssm aminoacids descending fuel k]
  rw [List.filterMap_append, List.head?_append, h]
  rfl

/-- Stability: `get_pssm_range` computed with enough fuel for both directions is the
result of the unbounded computation: more fuel never changes it. -/
theorem get_pssm_range_stable (pssm : List (List ℚ)) (aminoacids : List Char)
    (fuel fuel' : ℕ) (r : Except ScoreError ℚ × Except ScoreError ℚ)
    (hle : fuel ≤ fuel')
    (h : get_pssm_range fuel pssm aminoacids = some r) :
    get_pssm_range fuel' pssm aminoacids = some r := by
  unfold get_pssm_range at h ⊢
  cases h1 : firstYield pssm aminoacids true fuel with
  | none => rw [h1] at h; exact absurd h (by simp)
  | some mx =>
    cases h2 : firstYield pssm aminoacids false fuel with
    | none => rw [h1, h2] at h; exact absurd h (by simp)
    | some mn =>
      rw [h1, h2] at h
      rw [firstYield_stable pssm aminoacids true fuel fuel' mx hle h1,
          firstYield_stable pssm aminoacids false fuel fuel' mn hle h2]
      exact h
